import Mathlib

/-!
Shallow embedding of the allocation-reconciliation core of the scheduler
(`src/scheduler/util.go`) and of the cgroup cpuset reconciler
(`src/drivers/docker/reconcile_cpuset.go`, `src/unnamed/part_000`,
package `cgutil`), together with theorems settling the specification
claims about them.

Go maps are embedded as association lists (unique keys correspond to a
real Go map; map reads with a default are embedded as functions where
only reads occur).  Go `nil`-pointer dereferences and explicit `panic`
calls are embedded as an explicit error/panic outcome.  External
collaborators (state store, plan sink, fit stack, filesystem) are
embedded as explicit function parameters following the interface
contracts of the spec.
-/

set_option autoImplicit false

namespace Nomad

/-- Network resource of a task (external `structs.NetworkResource`).  The
scheduler code reads only the list of dynamically assigned ports (compared
by length in `tasksUpdated`) and copies whole `Networks` slices, so the
remaining fields are plain data. -/
structure NetworkResource where
  device : String
  cidr : String
  ip : String
  mbits : Nat
  reservedPorts : List Nat
  dynamicPorts : List String
deriving DecidableEq

/-- Resource specification (external `structs.Resources`). -/
structure Resources where
  cpu : Nat
  memoryMB : Nat
  diskMB : Nat
  iops : Nat
  networks : List NetworkResource
deriving DecidableEq

/-- Task (external `structs.Task`): name, driver and an opaque structured
configuration compared with `reflect.DeepEqual`; the configuration is
embedded as finite key/value data with decidable structural equality. -/
structure Task where
  name : String
  driver : String
  config : List (String × String)
  resources : Resources
deriving DecidableEq

/-- Task group (external `structs.TaskGroup`): name, desired count, tasks. -/
structure TaskGroup where
  name : String
  count : Nat
  tasks : List Task
deriving DecidableEq

/-- Job (external `structs.Job`): name, task groups and the monotonic
modify index used as a version stamp by `diffAllocs`. -/
structure Job where
  name : String
  taskGroups : List TaskGroup
  modifyIndex : Nat
deriving DecidableEq

/-- Node (external `structs.Node`): id, datacenter, status, drain flag. -/
structure Node where
  id : String
  datacenter : String
  status : String
  drain : Bool
deriving DecidableEq

/-- Allocation (external `structs.Allocation`): the fields read or written
by `scheduler/util.go`.  `job` is the snapshot of the job version the
allocation was placed against; `taskResources` is the per-task resource
assignment (a Go map keyed by task name). -/
structure Allocation where
  id : String
  evalID : String
  name : String
  nodeID : String
  job : Job
  taskResources : List (String × Resources)
  resources : Resources
  desiredStatus : String
  clientStatus : String
  metrics : String
deriving DecidableEq

/-- allocTuple (`src/scheduler/util.go:19-23`): a tuple of the allocation
name, the nullable task-group pointer and the nullable allocation pointer. -/
structure allocTuple where
  name : String
  taskGroup : Option TaskGroup
  alloc : Option Allocation
deriving DecidableEq

/-- diffResult (`src/scheduler/util.go:64-66`): the five buckets returned
by `diffAllocs`. -/
structure diffResult where
  place : List allocTuple
  update : List allocTuple
  migrate : List allocTuple
  stop : List allocTuple
  ignore : List allocTuple
deriving DecidableEq

/-- External constant `structs.AllocDesiredStatusStop`. -/
def AllocDesiredStatusStop : String := "stop"

/-- External constant `structs.AllocDesiredStatusRun`. -/
def AllocDesiredStatusRun : String := "run"

/-- External constant `structs.AllocClientStatusPending`. -/
def AllocClientStatusPending : String := "pending"

/-- External constant `structs.EvalStatusFailed`, the terminal status
carried by the max-attempts error of `retryMax`. -/
def EvalStatusFailed : String := "failed"

/-- Scheduler constant `allocInPlace`, the status description used for the
speculative stop staged by `inplaceUpdate`. -/
def allocInPlace : String := "alloc updating in-place"

/-- Plan sink (external interface, spec section 6): staged stop/evict
updates `AppendUpdate`/`PopUpdate` and new allocation records
`AppendAlloc`.  Updates are kept in staging order. -/
structure Plan where
  updates : List (Option Allocation × String × String)
  allocs : List Allocation
deriving DecidableEq

/-- AppendUpdate (external plan sink, spec section 6): stage a stop/evict
update for an allocation with the given desired status and description. -/
def Plan.appendUpdate (p : Plan) (alloc : Option Allocation) (status desc : String) : Plan :=
  { p with updates := p.updates ++ [(alloc, status, desc)] }

/-- PopUpdate (external plan sink, spec section 6): retract a staged
update; the most recently staged update is removed when it is for the
given allocation. -/
def Plan.popUpdate (p : Plan) (alloc : Allocation) : Plan :=
  match p.updates.getLast? with
  | some (some a, _, _) => if a = alloc then { p with updates := p.updates.dropLast } else p
  | _ => p

/-- AppendAlloc (external plan sink, spec section 6): append a new
allocation record to the plan. -/
def Plan.appendAlloc (p : Plan) (alloc : Allocation) : Plan :=
  { p with allocs := p.allocs ++ [alloc] }

/-! ## diffAllocs (`src/scheduler/util.go:80-151`) -/

/-- Phase 1 of `diffAllocs` (`src/scheduler/util.go:84-135`): scan the
existing allocations in order and classify each into stop / migrate /
update / ignore.  The Go loop appends to each bucket in scan order, which
the recursion reproduces; the `existing` name set built by the loop is
only read by phase 2, after the loop, so it is reconstructed there. -/
def diffExistingGo (job : Job) (tainted : String → Bool)
    (required : List (String × TaskGroup)) : List Allocation → diffResult
  | [] => ⟨[], [], [], [], []⟩
  | exist :: rest =>
    let d := diffExistingGo job tainted required rest
    match required.lookup exist.name with
    | none => { d with stop := ⟨exist.name, none, some exist⟩ :: d.stop }
    | some tg =>
      if tainted exist.nodeID then
        { d with migrate := ⟨exist.name, some tg, some exist⟩ :: d.migrate }
      else if job.modifyIndex ≠ exist.job.modifyIndex then
        { d with update := ⟨exist.name, some tg, some exist⟩ :: d.update }
      else
        { d with ignore := ⟨exist.name, some tg, some exist⟩ :: d.ignore }

/-- diffAllocs (`src/scheduler/util.go:80-151`): the two-phase diff.  The
required map is embedded as an association list (a Go map: unique keys,
iteration order arbitrary — the list order stands in for it); the taint
map is read-only with default `false`, embedded as a function. -/
def diffAllocs (job : Job) (tainted : String → Bool)
    (required : List (String × TaskGroup)) (allocs : List Allocation) : diffResult :=
  let d := diffExistingGo job tainted required allocs
  let existing := allocs.map (fun a => a.name)
  { d with
    place := (required.filter (fun p => decide (p.1 ∉ existing))).map
      (fun p => ⟨p.1, some p.2, none⟩) }

/-- Concatenation of the names in all five buckets of a diffResult, used
to state the partition property. -/
def diffResult.allNames (d : diffResult) : List String :=
  (d.place ++ d.update ++ d.migrate ++ d.stop ++ d.ignore).map (fun t => t.name)

/-! ## retryMax (`src/scheduler/util.go:191-207`) -/

/-- Scheduler error kinds: an error propagated from the callback, or the
typed `SetStatusError` built by `retryMax` when the attempt budget is
exhausted (carrying the terminal evaluation status). -/
inductive SchedulerError (E : Type) where
  | cbErr (e : E)
  | setStatusError (maxAttempts : Nat) (evalStatus : String)
deriving DecidableEq

/-- Loop of `retryMax` (`src/scheduler/util.go:192-201`).  The stateful Go
callback is embedded as a function of the invocation index.  The result
carries the number of invocations performed (the loop counter), so that
the attempt-count behaviour is statable. -/
def retryMaxGo {E : Type} (cb : Nat → Bool × Option E) (max attempts : Nat) :
    Option (SchedulerError E) × Nat :=
  if _h : attempts < max then
    match cb attempts with
    | (_, some e) => (some (.cbErr e), attempts + 1)
    | (true, none) => (none, attempts + 1)
    | (false, none) => retryMaxGo cb max (attempts + 1)
  else (some (.setStatusError max EvalStatusFailed), attempts)
termination_by max - attempts
decreasing_by omega

/-- retryMax (`src/scheduler/util.go:191-207`): retry `cb` until it
returns an error (propagated), reports done (success, `none`), or `max`
attempts are exhausted (typed max-attempts error with `EvalStatusFailed`). -/
def retryMax {E : Type} (max : Nat) (cb : Nat → Bool × Option E) :
    Option (SchedulerError E) × Nat :=
  retryMaxGo cb max 0

/-! ## taintedNodes (`src/scheduler/util.go:211-232`) -/

/-- Loop of `taintedNodes` (`src/scheduler/util.go:213-230`): walk the
allocations, memoize on node id, look each distinct node id up once.
`nodeByID` embeds the external state accessor `State.NodeByID`;
`shouldDrainNode` embeds the external predicate `structs.ShouldDrainNode`
on the node status. -/
def taintedNodesGo {Err : Type} (nodeByID : String → Except Err (Option Node))
    (shouldDrainNode : String → Bool) :
    List Allocation → List (String × Bool) → Except Err (List (String × Bool))
  | [], out => .ok out
  | alloc :: rest, out =>
    if (out.lookup alloc.nodeID).isSome then
      taintedNodesGo nodeByID shouldDrainNode rest out
    else
      match nodeByID alloc.nodeID with
      | .error e => .error e
      | .ok none => taintedNodesGo nodeByID shouldDrainNode rest (out ++ [(alloc.nodeID, true)])
      | .ok (some node) =>
        taintedNodesGo nodeByID shouldDrainNode rest
          (out ++ [(alloc.nodeID, shouldDrainNode node.status || node.drain)])

/-- taintedNodes (`src/scheduler/util.go:211-232`). -/
def taintedNodes {Err : Type} (nodeByID : String → Except Err (Option Node))
    (shouldDrainNode : String → Bool) (allocs : List Allocation) :
    Except Err (List (String × Bool)) :=
  taintedNodesGo nodeByID shouldDrainNode allocs []

/-! ## evictAndPlace (`src/scheduler/util.go:375-388`) -/

/-- Loop of `evictAndPlace` (`src/scheduler/util.go:377-381`): the Go loop
runs `i` from `0` while `i < n && i < *limit`, staging a stop update and
appending the tuple to the place bucket; it is embedded with the residual
budget `lim - i` counting down.  `limit` is a Go `int`, embedded as `Int`. -/
def evictAndPlaceGo (desc : String) :
    Plan → diffResult → List allocTuple → Int → Plan × diffResult
  | plan, diff, [], _ => (plan, diff)
  | plan, diff, a :: rest, lim =>
    if 0 < lim then
      evictAndPlaceGo desc (plan.appendUpdate a.alloc AllocDesiredStatusStop desc)
        { diff with place := diff.place ++ [a] } rest (lim - 1)
    else (plan, diff)

/-- evictAndPlace (`src/scheduler/util.go:375-388`): stage evictions for
up to `limit` tuples, append the same tuples to the place bucket, then
either decrement the budget (list fully processed, returns `false`) or
zero it (budget exhausted, returns `true`).  Returns the mutated plan,
diff, the new value of the shared budget, and the exhaustion flag. -/
def evictAndPlace (plan : Plan) (diff : diffResult) (allocs : List allocTuple)
    (desc : String) (limit : Int) : Plan × diffResult × Int × Bool :=
  let pd := evictAndPlaceGo desc plan diff allocs limit
  if (allocs.length : Int) ≤ limit then (pd.1, pd.2, limit - allocs.length, false)
  else (pd.1, pd.2, 0, true)

/-! ## inplaceUpdate (`src/scheduler/util.go:292-370`) -/

/-- Evaluation (external `structs.Evaluation`): only its id is read by
`inplaceUpdate`. -/
structure Evaluation where
  id : String
deriving DecidableEq

/-- LookupTask (external `structs.TaskGroup` method): first task with the
given name, nil when absent. -/
def TaskGroup.lookupTask (tg : TaskGroup) (name : String) : Option Task :=
  tg.tasks.find? (fun t => t.name == name)

/-- LookupTaskGroup (external `structs.Job` method): first task group with
the given name, nil when absent. -/
def Job.lookupTaskGroup (j : Job) (name : String) : Option TaskGroup :=
  j.taskGroups.find? (fun tg => tg.name == name)

/-- tasksUpdated (`src/scheduler/util.go:239-275`): structural update test
between two task groups — task count, per-task driver, deep-equal config,
network count and per-network dynamic-port count. -/
def tasksUpdated (a b : TaskGroup) : Bool :=
  if a.tasks.length ≠ b.tasks.length then true
  else a.tasks.any (fun ta =>
    match b.lookupTask ta.name with
    | none => true
    | some tb =>
      decide (ta.driver ≠ tb.driver) ||
      decide (ta.config ≠ tb.config) ||
      decide (ta.resources.networks.length ≠ tb.resources.networks.length) ||
      (ta.resources.networks.zip tb.resources.networks).any
        (fun nn => decide (nn.1.dynamicPorts.length ≠ nn.2.dynamicPorts.length)))

/-- Network restore step of `inplaceUpdate` (`src/scheduler/util.go:337-344`):
for every task in the selected option's task resources, overwrite the
networks field with the networks of the existing allocation's resources
for that task.  A task absent from the existing allocation's map yields a
nil pointer that the Go code would dereference, embedded as `none`. -/
def restoreNetworks (orig : List (String × Resources)) :
    List (String × Resources) → Option (List (String × Resources))
  | [] => some []
  | (task, r) :: rest =>
    match orig.lookup task with
    | none => none
    | some er =>
      match restoreNetworks orig rest with
      | none => none
      | some out => some ((task, { r with networks := er.networks }) :: out)

/-- Outcome of one iteration of the `inplaceUpdate` loop body: a Go
runtime panic (nil dereference), the candidate left in the residual, or
the candidate resolved in place. -/
inductive StepOut where
  | goPanic (msg : String)
  | keep (plan : Plan)
  | resolved (plan : Plan)
deriving DecidableEq

/-- Body of the `inplaceUpdate` loop (`src/scheduler/util.go:297-364`) for
one candidate.  The external fit stack's `SetNodes([node])` followed by
`Select(tg)` is embedded as the pure function `select'` applied to that
node; the speculative stop is staged before the selection and retracted
right after it, in both fit outcomes, exactly as in the source. -/
def inplaceStep {Err : Type} (nodeByID : String → Except Err (Option Node))
    (select' : Node → TaskGroup → Option (List (String × Resources) × Resources))
    (eval : Evaluation) (metrics : String) (job : Job) (plan : Plan) (t : allocTuple) :
    StepOut :=
  match t.alloc, t.taskGroup with
  | some alloc, some tg =>
    match alloc.job.lookupTaskGroup tg.name with
    | none => .goPanic "nil task group"
    | some existing =>
      if tasksUpdated tg existing then .keep plan
      else
        match nodeByID alloc.nodeID with
        | .error _ => .keep plan
        | .ok none => .keep plan
        | .ok (some node) =>
          let plan1 := plan.appendUpdate (some alloc) AllocDesiredStatusStop allocInPlace
          match select' node tg with
          | none => .keep (plan1.popUpdate alloc)
          | some (taskRes, size) =>
            let plan2 := plan1.popUpdate alloc
            match restoreNetworks alloc.taskResources taskRes with
            | none => .goPanic "nil task resources"
            | some newTaskRes =>
              .resolved (plan2.appendAlloc
                { alloc with
                  evalID := eval.id
                  job := job
                  resources := size
                  taskResources := newTaskRes
                  metrics := metrics
                  desiredStatus := AllocDesiredStatusRun
                  clientStatus := AllocClientStatusPending })
  | _, _ => .goPanic "nil allocation or task group"

/-- Plan-independent classification of an `inplaceUpdate` candidate:
`none` = the loop body panics on it, `some none` = it stays in the
residual, `some (some a)` = it is resolved in place and `a` is the new
allocation record appended to the plan. -/
def classifyStep {Err : Type} (nodeByID : String → Except Err (Option Node))
    (select' : Node → TaskGroup → Option (List (String × Resources) × Resources))
    (eval : Evaluation) (metrics : String) (job : Job) (t : allocTuple) :
    Option (Option Allocation) :=
  match t.alloc, t.taskGroup with
  | some alloc, some tg =>
    match alloc.job.lookupTaskGroup tg.name with
    | none => none
    | some existing =>
      if tasksUpdated tg existing then some none
      else
        match nodeByID alloc.nodeID with
        | .error _ => some none
        | .ok none => some none
        | .ok (some node) =>
          match select' node tg with
          | none => some none
          | some (taskRes, size) =>
            match restoreNetworks alloc.taskResources taskRes with
            | none => none
            | some newTaskRes =>
              some (some
                { alloc with
                  evalID := eval.id
                  job := job
                  resources := size
                  taskResources := newTaskRes
                  metrics := metrics
                  desiredStatus := AllocDesiredStatusRun
                  clientStatus := AllocClientStatusPending })
  | _, _ => none

/-- Loop of `inplaceUpdate` (`src/scheduler/util.go:296-365`): the Go code
walks index `i` below a shrinking bound `n`, and on an in-place resolution
moves the last live element into slot `i` and shrinks (`updates[i] =
updates[n-1]; i--; n--`); the live prefix `updates[:n]` is the list
carried here, so shrinking is `set i last` followed by `dropLast`.  A
panic in the body aborts the whole loop. -/
def inplaceLoop {Err : Type} (nodeByID : String → Except Err (Option Node))
    (select' : Node → TaskGroup → Option (List (String × Resources) × Resources))
    (eval : Evaluation) (metrics : String) (job : Job) :
    Plan → List allocTuple → Nat → Except String (Plan × List allocTuple)
  | plan, arr, i =>
    if h : i < arr.length then
      match inplaceStep nodeByID select' eval metrics job plan arr[i] with
      | .goPanic m => .error m
      | .keep plan' => inplaceLoop nodeByID select' eval metrics job plan' arr (i + 1)
      | .resolved plan' =>
        inplaceLoop nodeByID select' eval metrics job plan'
          ((arr.set i (arr.getLast (List.ne_nil_of_length_pos (by omega)))).dropLast) i
    else .ok (plan, arr)
termination_by _ arr i => arr.length - i
decreasing_by
· omega
· simp only [List.length_dropLast, List.length_set]; omega

/-- inplaceUpdate (`src/scheduler/util.go:292-370`): attempt to update the
given candidates in place; returns the mutated plan and the residual that
still needs evict-and-place (or the message of a Go panic). -/
def inplaceUpdate {Err : Type} (nodeByID : String → Except Err (Option Node))
    (select' : Node → TaskGroup → Option (List (String × Resources) × Resources))
    (eval : Evaluation) (metrics : String) (job : Job) (plan : Plan)
    (updates : List allocTuple) : Except String (Plan × List allocTuple) :=
  inplaceLoop nodeByID select' eval metrics job plan updates 0

/-! ## Cgroup cpuset reconciler (`src/drivers/docker/reconcile_cpuset.go`,
`src/unnamed/part_000`) -/

/-- Tracked coordinate of the cpuset fixer
(`src/drivers/docker/reconcile_cpuset.go:92-96`). -/
structure coordinate where
  containerID : String
  allocID : String
  task : String
deriving DecidableEq

/-- External constant `cgutil.V2CgroupRoot`. -/
def v2CgroupRoot : String := "/sys/fs/cgroup"

/-- CgroupID (`src/unnamed/part_000:61-70`, package `cgutil`): panics on an
empty alloc id or task name (embedded as `.error`); otherwise formats the
scope name, by cgroup version (the global `UseV2` is a parameter here). -/
def CgroupID (useV2 : Bool) (allocID task : String) : Except String String :=
  if allocID = "" || task = "" then .error "empty alloc or task"
  else if useV2 then .ok (allocID ++ "." ++ task ++ ".scope")
  else .ok (task ++ "." ++ allocID)

/-- NomadScope (`src/drivers/docker/reconcile_cpuset.go:98-100`). -/
def coordinate.nomadScope (useV2 : Bool) (c : coordinate) : Except String String :=
  CgroupID useV2 c.allocID c.task

/-- DockerScope (`src/drivers/docker/reconcile_cpuset.go:102-104`). -/
def coordinate.dockerScope (c : coordinate) : String :=
  "docker-" ++ c.containerID ++ ".scope"

/-- Outcome of `cpusetFixer.fix` on one coordinate: a Go panic escaping
from `CgroupID`, a successful copy, or a copy error that is logged at
trace level and otherwise ignored. -/
inductive FixOutcome (CopyErr : Type) where
  | panicked (msg : String)
  | copied
  | loggedErr (e : CopyErr)
deriving DecidableEq

/-- fix (`src/drivers/docker/reconcile_cpuset.go:85-91`): build the source
path from the Nomad scope and the destination path from the Docker scope
(`filepath.Join` embedded as separator concatenation) and copy
`cpuset.cpus` between them; `cgutil.CopyCpuset` touches the filesystem and
is embedded as the function parameter `copyCpuset`, returning an optional
error.  A copy error is logged and dropped. -/
def cpusetFix {CopyErr : Type} (useV2 : Bool) (parent : String)
    (copyCpuset : String → String → Option CopyErr) (c : coordinate) :
    FixOutcome CopyErr :=
  match c.nomadScope useV2 with
  | .error m => .panicked m
  | .ok scope =>
    let source := v2CgroupRoot ++ "/" ++ parent ++ "/" ++ scope
    let destination := v2CgroupRoot ++ "/" ++ parent ++ "/" ++ c.dockerScope
    match copyCpuset source destination with
    | some e => .loggedErr e
    | none => .copied

/-- scan (`src/drivers/docker/reconcile_cpuset.go:78-83`): fix every
tracked coordinate of the snapshot in turn (the Go map snapshot is
embedded as a list).  A panic in `fix` escapes `scan` and kills the
reconciler, so the remaining coordinates are not processed: the result is
the list of processed coordinates with their outcomes, plus the panic
message if one aborted the scan. -/
def cpusetScan {CopyErr : Type} (useV2 : Bool) (parent : String)
    (copyCpuset : String → String → Option CopyErr) :
    List coordinate → List (coordinate × FixOutcome CopyErr) × Option String
  | [] => ([], none)
  | c :: rest =>
    match cpusetFix useV2 parent copyCpuset c with
    | .panicked m => ([], some m)
    | out =>
      let r := cpusetScan useV2 parent copyCpuset rest
      ((c, out) :: r.1, r.2)

/-! ## Task-group materializer and id extraction
(`src/scheduler/util.go:13-62`) -/

/-- Decimal digit characters of a natural number, most significant first:
the embedding of the `%d` formatting used by `fmt.Sprintf` for the
count-expansion index. -/
def decimalDigits (n : Nat) : List Char :=
  if n < 10 then [Nat.digitChar n]
  else decimalDigits (n / 10) ++ [Nat.digitChar (n % 10)]
termination_by n
decreasing_by exact Nat.div_lt_self (by omega) (by omega)

/-- Decimal string of a natural number (`fmt.Sprintf("%d", n)`). -/
def decimal (n : Nat) : String :=
  String.mk (decimalDigits n)

/-- Name built by `materializeTaskGroups` (`src/scheduler/util.go:31`):
`fmt.Sprintf("%s.%s[%d]", job.Name, tg.Name, i)`. -/
def taskGroupName (job : Job) (tg : TaskGroup) (i : Nat) : String :=
  job.name ++ "." ++ tg.name ++ "[" ++ decimal i ++ "]"

/-- materializeTaskGroups (`src/scheduler/util.go:27-36`): count expansion
of every task group into named desired instances; the Go map is embedded
as the list of its entries. -/
def materializeTaskGroups (job : Job) : List (String × TaskGroup) :=
  job.taskGroups.flatMap (fun tg =>
    (List.range tg.count).map (fun i => (taskGroupName job tg i, tg)))

/-! Embedding of the compiled pattern `taskGroupID`
(`src/scheduler/util.go:15`), the Go regexp `.+\..+\[(.*)\]` with Go's
Perl-style leftmost-first, greedy-with-backtracking semantics, in which
`.` matches any character except newline.  Each function below embeds a
suffix of the pattern; a greedy element always prefers consuming another
character (the recursive call) and falls back to the next literal of the
pattern only when the longer attempt fails. -/

/-- Matcher for the pattern suffix `(.*)\]`: the capture group followed by
the closing literal bracket, greedy. -/
def matchCaptureClose : List Char → Option (List Char)
  | [] => none
  | c :: rest =>
    match (if c = '\n' then none else matchCaptureClose rest) with
    | some cap => some (c :: cap)
    | none => if c = ']' then some [] else none

/-- Matcher for `(.)*\[(.*)\]` after at least one character of the second
`.+` has been consumed: keep extending the `.+` greedily, else expect the
literal `[`. -/
def matchToLBrack : List Char → Option (List Char)
  | [] => none
  | c :: rest =>
    match (if c = '\n' then none else matchToLBrack rest) with
    | some cap => some cap
    | none => if c = '[' then matchCaptureClose rest else none

/-- Matcher for the pattern suffix `.+\[(.*)\]`. -/
def matchDotPlusLBrack : List Char → Option (List Char)
  | [] => none
  | c :: rest => if c = '\n' then none else matchToLBrack rest

/-- Matcher for `(.)*\..+\[(.*)\]` after at least one character of the
first `.+` has been consumed: keep extending greedily, else expect the
literal dot. -/
def matchToDot : List Char → Option (List Char)
  | [] => none
  | c :: rest =>
    match (if c = '\n' then none else matchToDot rest) with
    | some cap => some cap
    | none => if c = '.' then matchDotPlusLBrack rest else none

/-- Matcher for the full pattern `.+\..+\[(.*)\]` anchored at the current
position. -/
def matchPatternAt : List Char → Option (List Char)
  | [] => none
  | c :: rest => if c = '\n' then none else matchToDot rest

/-- FindStringSubmatch for the pattern: try every start position from the
left and return the first (leftmost) match's capture. -/
def findSubmatch : List Char → Option (List Char)
  | [] => none
  | c :: rest =>
    match matchPatternAt (c :: rest) with
    | some cap => some cap
    | none => findSubmatch rest

/-- extractTaskGroupId (`src/scheduler/util.go:55-62`): the bracketed
discriminator captured by the pattern, or a parse error when the name does
not match. -/
def extractTaskGroupId (name : String) : Except String String :=
  match findSubmatch name.data with
  | some cap => .ok (String.mk cap)
  | none => .error ("could not determine task group id from " ++ name)

/-! ## Helper lemmas -/

/-- Characterization of the `evictAndPlace` loop: it stages a stop update
and a place entry for exactly the first `lim.toNat` tuples (capped by the
list length). -/
lemma evictAndPlaceGo_spec (desc : String) :
    ∀ (allocs : List allocTuple) (plan : Plan) (diff : diffResult) (lim : Int), 0 ≤ lim →
      evictAndPlaceGo desc plan diff allocs lim =
        ({ plan with updates := plan.updates ++ ((allocs.take lim.toNat).map
              (fun a => (a.alloc, AllocDesiredStatusStop, desc))) },
         { diff with place := diff.place ++ allocs.take lim.toNat }) := by
  intro allocs
  induction allocs with
  | nil =>
    intro plan diff lim h
    simp [evictAndPlaceGo]
  | cons a rest ih =>
    intro plan diff lim h
    by_cases h0 : 0 < lim
    · have htn : lim.toNat = (lim - 1).toNat + 1 := by omega
      rw [evictAndPlaceGo, if_pos h0, ih _ _ _ (by omega), htn]
      simp [Plan.appendUpdate, List.take_succ_cons]
    · have h1 : lim.toNat = 0 := by omega
      rw [evictAndPlaceGo, if_neg h0, h1]
      simp

/-- Empty plan fixture. -/
def emptyPlan : Plan := ⟨[], []⟩

/-- Empty diff fixture. -/
def emptyDiff : diffResult := ⟨[], [], [], [], []⟩

/-- Sample alloc tuples for witnesses. -/
def tupleA : allocTuple := ⟨"w.g[0]", none, none⟩

/-- Second sample alloc tuple. -/
def tupleB : allocTuple := ⟨"w.g[1]", none, none⟩

/-- C5: for every list of alloc tuples of length L and budget B ≥ 0,
evictAndPlace stages exactly min(L, B) stop mutations and appends the same
min(L, B) tuples to the place bucket; if L ≤ B it returns false
("not exhausted") and the budget becomes B − L, otherwise it returns true
("exhausted") and the budget becomes 0. -/
theorem evictAndPlace_budget (plan : Plan) (diff : diffResult) (allocs : List allocTuple)
    (desc : String) (limit : Int) (h : 0 ≤ limit) :
    ((evictAndPlace plan diff allocs desc limit).1.updates =
        plan.updates ++ ((allocs.take limit.toNat).map
          (fun a => (a.alloc, AllocDesiredStatusStop, desc)))) ∧
    ((evictAndPlace plan diff allocs desc limit).1.updates.length =
        plan.updates.length + min allocs.length limit.toNat) ∧
    ((evictAndPlace plan diff allocs desc limit).1.allocs = plan.allocs) ∧
    ((evictAndPlace plan diff allocs desc limit).2.1.place =
        diff.place ++ allocs.take limit.toNat) ∧
    ((allocs.length : Int) ≤ limit →
        (evictAndPlace plan diff allocs desc limit).2.2 = (limit - allocs.length, false)) ∧
    (limit < (allocs.length : Int) →
        (evictAndPlace plan diff allocs desc limit).2.2 = (0, true)) := by
  have hgo := evictAndPlaceGo_spec desc allocs plan diff limit h
  have h1 : evictAndPlace plan diff allocs desc limit =
      ({ plan with updates := plan.updates ++ ((allocs.take limit.toNat).map
          (fun a => (a.alloc, AllocDesiredStatusStop, desc))) },
       { diff with place := diff.place ++ allocs.take limit.toNat },
       (if (allocs.length : Int) ≤ limit then (limit - allocs.length, false)
        else ((0 : Int), true))) := by
    simp only [evictAndPlace, hgo]
    by_cases hc : (allocs.length : Int) ≤ limit
    · rw [if_pos hc, if_pos hc]
    · rw [if_neg hc, if_neg hc]
  rw [h1]
  refine ⟨rfl, ?_, rfl, rfl, fun hle => by rw [if_pos hle], fun hlt => by rw [if_neg (by omega)]⟩
  simp only [List.length_append, List.length_map, List.length_take]
  omega

/-- Witness for C5 at a concrete input: two tuples, budget 1. -/
theorem evictAndPlace_budget_witness :
    (0 : Int) ≤ 1 ∧
    ((evictAndPlace emptyPlan emptyDiff [tupleA, tupleB] "drain" 1).1.updates.length =
        0 + min 2 1 ∧
      (evictAndPlace emptyPlan emptyDiff [tupleA, tupleB] "drain" 1).2.2 = (0, true)) := by
  refine ⟨by decide, ?_, ?_⟩
  · exact (evictAndPlace_budget emptyPlan emptyDiff [tupleA, tupleB] "drain" 1 (by decide)).2.1
  · exact (evictAndPlace_budget emptyPlan emptyDiff [tupleA, tupleB] "drain" 1
      (by decide)).2.2.2.2.2 (by decide)

/-- Lemma: the retryMax loop is unchanged across a run of (false, nil)
invocations: starting at attempt k it behaves as starting at attempt K. -/
lemma retryMaxGo_congr {E : Type} (cb : Nat → Bool × Option E) (max : Nat) :
    ∀ (n k K : Nat), K - k ≤ n → k ≤ K → K ≤ max →
      (∀ j, k ≤ j → j < K → cb j = (false, none)) →
      retryMaxGo cb max k = retryMaxGo cb max K := by
  intro n
  induction n with
  | zero =>
    intro k K hn hkK _ _
    have : k = K := by omega
    rw [this]
  | succ n ih =>
    intro k K hn hkK hKm hcb
    rcases Nat.eq_or_lt_of_le hkK with heq | hlt
    · rw [heq]
    · rw [retryMaxGo, dif_pos (by omega), hcb k le_rfl hlt]
      exact ih (k + 1) K (by omega) (by omega) hKm (fun j hj1 hj2 => hcb j (by omega) hj2)

/-- Lemma: one unfolding of the retryMax loop at an in-budget attempt. -/
lemma retryMaxGo_step {E : Type} (cb : Nat → Bool × Option E) (max k : Nat) (h : k < max) :
    retryMaxGo cb max k =
      match cb k with
      | (_, some e) => (some (.cbErr e), k + 1)
      | (true, none) => (none, k + 1)
      | (false, none) => retryMaxGo cb max (k + 1) := by
  rw [retryMaxGo, dif_pos h]

/-- Lemma: the retryMax loop at an exhausted budget returns the typed
max-attempts error. -/
lemma retryMaxGo_exhausted {E : Type} (cb : Nat → Bool × Option E) (max : Nat) :
    retryMaxGo cb max max = (some (.setStatusError max EvalStatusFailed), max) := by
  rw [retryMaxGo, dif_neg (by omega)]

/-- C7: retryMax(limit, cb) returns cb's error immediately on the first
invocation whose error is non-nil, returns success immediately on the
first invocation reporting done with a nil error, and if limit invocations
occur with (false, nil) each time, returns a typed max-attempts error
carrying the terminal evaluation-failed status after exactly limit
invocations. -/
theorem retryMax_spec {E : Type} (max : Nat) (cb : Nat → Bool × Option E) :
    ((∀ j, j < max → cb j = (false, none)) →
        retryMax max cb = (some (.setStatusError max EvalStatusFailed), max)) ∧
    (∀ k d e, k < max → (∀ j, j < k → cb j = (false, none)) → cb k = (d, some e) →
        retryMax max cb = (some (.cbErr e), k + 1)) ∧
    (∀ k, k < max → (∀ j, j < k → cb j = (false, none)) → cb k = (true, none) →
        retryMax max cb = (none, k + 1)) := by
  refine ⟨?_, ?_, ?_⟩
  · intro hall
    unfold retryMax
    rw [retryMaxGo_congr cb max max 0 max (by omega) (by omega) le_rfl
      (fun j _ hj => hall j hj)]
    exact retryMaxGo_exhausted cb max
  · intro k d e hk hpre hcb
    unfold retryMax
    rw [retryMaxGo_congr cb max k 0 k (by omega) (by omega) (by omega)
      (fun j _ hj => hpre j hj)]
    rw [retryMaxGo_step cb max k hk, hcb]
    cases d <;> rfl
  · intro k hk hpre hcb
    unfold retryMax
    rw [retryMaxGo_congr cb max k 0 k (by omega) (by omega) (by omega)
      (fun j _ hj => hpre j hj)]
    rw [retryMaxGo_step cb max k hk, hcb]

/-- Witness for C7: a callback yielding (false,nil) three times fails with
the max-attempts error after exactly 3 invocations; a callback yielding
(false,nil) then (true,nil) succeeds after exactly 2 invocations. -/
theorem retryMax_spec_witness :
    retryMax 3 (fun _ => (false, (none : Option String))) =
      (some (.setStatusError 3 EvalStatusFailed), 3) ∧
    retryMax 3 (fun j => (decide (j = 1), (none : Option String))) = (none, 2) := by
  constructor
  · exact (retryMax_spec 3 (fun _ => (false, (none : Option String)))).1 (fun j _ => rfl)
  · refine (retryMax_spec 3 (fun j => (decide (j = 1), (none : Option String)))).2.2 1
      (by omega) ?_ (by simp)
    intro j hj
    interval_cases j
    simp

/-- C8: every existing allocation whose name is absent from the desired map
is placed in the stop bucket exactly once (one stop tuple per occurrence,
in scan order, with a nil task group), regardless of taint state and of
the recorded job modify-index, and nothing else enters the stop bucket. -/
theorem diffAllocs_stop_exact (job : Job) (tainted : String → Bool)
    (required : List (String × TaskGroup)) (allocs : List Allocation) :
    (diffAllocs job tainted required allocs).stop =
      (allocs.filter (fun a => (required.lookup a.name).isNone)).map
        (fun a => ⟨a.name, none, some a⟩) := by
  show (diffExistingGo job tainted required allocs).stop = _
  induction allocs with
  | nil => rfl
  | cons a rest ih =>
    rw [diffExistingGo]
    cases hl : required.lookup a.name with
    | none => simp [hl, ih, List.filter_cons]
    | some tg =>
      by_cases ht : tainted a.nodeID
      · simp [hl, ht, ih, List.filter_cons]
      · by_cases hm : job.modifyIndex ≠ a.job.modifyIndex
        · simp [hl, ht, hm, ih, List.filter_cons]
        · simp [hl, ht, hm, ih, List.filter_cons]

/-- Lemma: an existing allocation on a tainted node whose name is in the
required map contributes its tuple to the migrate bucket of phase 1. -/
lemma diffExistingGo_migrate_mem (job : Job) (tainted : String → Bool)
    (required : List (String × TaskGroup)) :
    ∀ (allocs : List Allocation) (a : Allocation) (tg : TaskGroup),
      a ∈ allocs → required.lookup a.name = some tg → tainted a.nodeID = true →
      (⟨a.name, some tg, some a⟩ : allocTuple) ∈
        (diffExistingGo job tainted required allocs).migrate := by
  intro allocs
  induction allocs with
  | nil => intro a tg ha; simp at ha
  | cons b rest ih =>
    intro a tg ha hl ht
    rw [diffExistingGo]
    rcases List.mem_cons.mp ha with heq | hmem
    · subst heq
      rw [hl]
      simp [ht]
    · have hmig := ih a tg hmem hl ht
      cases hlb : required.lookup b.name with
      | none => simpa using hmig
      | some tgb =>
        by_cases htb : tainted b.nodeID
        · simp only [htb, if_true]
          exact List.mem_cons_of_mem _ hmig
        · by_cases hmb : job.modifyIndex ≠ b.job.modifyIndex
          · simpa [htb, hmb] using hmig
          · simpa [htb, hmb] using hmig

/-- Lemma: every tuple of the update bucket of phase 1 carries an
allocation whose node is not tainted. -/
lemma diffExistingGo_update_not_tainted (job : Job) (tainted : String → Bool)
    (required : List (String × TaskGroup)) :
    ∀ (allocs : List Allocation) (t : allocTuple),
      t ∈ (diffExistingGo job tainted required allocs).update →
      ∀ a : Allocation, t.alloc = some a → tainted a.nodeID = false := by
  intro allocs
  induction allocs with
  | nil => intro t ht; simp [diffExistingGo] at ht
  | cons b rest ih =>
    intro t ht a hta
    rw [diffExistingGo] at ht
    cases hlb : required.lookup b.name with
    | none =>
      rw [hlb] at ht
      exact ih t ht a hta
    | some tgb =>
      simp only [hlb] at ht
      by_cases htb : tainted b.nodeID
      · rw [if_pos htb] at ht
        exact ih t ht a hta
      · rw [if_neg htb] at ht
        by_cases hmb : job.modifyIndex ≠ b.job.modifyIndex
        · rw [if_pos hmb] at ht
          rcases List.mem_cons.mp ht with heq | hmem
          · subst heq
            simp only [Option.some.injEq] at hta
            subst hta
            simpa using htb
          · exact ih t hmem a hta
        · rw [if_neg hmb] at ht
          exact ih t ht a hta

/-- C2: an existing allocation whose name is in the desired map and whose
node is tainted lands in the migrate bucket and never in the update
bucket, independent of its recorded job modify-index. -/
theorem diffAllocs_migrate_precedence (job : Job) (tainted : String → Bool)
    (required : List (String × TaskGroup)) (allocs : List Allocation)
    (a : Allocation) (tg : TaskGroup) (ha : a ∈ allocs)
    (hreq : required.lookup a.name = some tg) (htaint : tainted a.nodeID = true) :
    (⟨a.name, some tg, some a⟩ : allocTuple) ∈
        (diffAllocs job tainted required allocs).migrate ∧
    ∀ t ∈ (diffAllocs job tainted required allocs).update, t.alloc ≠ some a := by
  constructor
  · show (⟨a.name, some tg, some a⟩ : allocTuple) ∈
      (diffExistingGo job tainted required allocs).migrate
    exact diffExistingGo_migrate_mem job tainted required allocs a tg ha hreq htaint
  · intro t ht hcontra
    have hnt := diffExistingGo_update_not_tainted job tainted required allocs t ht a hcontra
    rw [htaint] at hnt
    simp at hnt

/-- Task-group fixture. -/
def tgW : TaskGroup := ⟨"api", 1, []⟩

/-- Current job fixture (modify-index 5). -/
def jobW : Job := ⟨"web", [tgW], 5⟩

/-- Stale job snapshot fixture (modify-index 4). -/
def jobWold : Job := ⟨"web", [tgW], 4⟩

/-- Allocation fixture on node n2 with a stale job snapshot. -/
def allocW : Allocation :=
  ⟨"id1", "e0", "web.api[0]", "n2", jobWold, [], ⟨0, 0, 0, 0, []⟩, "run", "running", ""⟩

/-- Witness for C2: a stale allocation on the tainted node n2 migrates and
is not updated. -/
theorem diffAllocs_migrate_precedence_witness :
    (⟨"web.api[0]", some tgW, some allocW⟩ : allocTuple) ∈
        (diffAllocs jobW (fun id => decide (id = "n2")) [("web.api[0]", tgW)] [allocW]).migrate ∧
    ∀ t ∈ (diffAllocs jobW (fun id => decide (id = "n2"))
        [("web.api[0]", tgW)] [allocW]).update, t.alloc ≠ some allocW := by
  have h := diffAllocs_migrate_precedence jobW (fun id => decide (id = "n2"))
    [("web.api[0]", tgW)] [allocW] allocW tgW (by simp) (by rfl) (by rfl)
  exact h

/-- Taint value that `taintedNodes` computes for a node id: true for a
vanished node, otherwise drain-status-or-drain-flag
(`src/scheduler/util.go:223-229`). -/
def taintValue {Err : Type} (nodeByID : String → Except Err (Option Node))
    (shouldDrainNode : String → Bool) (id : String) : Option Bool :=
  match nodeByID id with
  | .error _ => none
  | .ok none => some true
  | .ok (some node) => some (shouldDrainNode node.status || node.drain)

/-- Lemma: lookup in an association list extended on the right. -/
lemma lookup_concat (k : String) (v : Bool) :
    ∀ (out : List (String × Bool)) (id : String),
      (out ++ [(k, v)]).lookup id =
        match out.lookup id with
        | some b => some b
        | none => if id = k then some v else none := by
  intro out
  induction out with
  | nil =>
    intro id
    by_cases h : id = k
    · have hbeq : (id == k) = true := beq_iff_eq.mpr h
      simp [List.lookup, hbeq, h]
    · have hbeq : (id == k) = false := beq_eq_false_iff_ne.mpr h
      simp [List.lookup, hbeq, h]
  | cons p rest ih =>
    intro id
    obtain ⟨k0, v0⟩ := p
    by_cases h : id = k0
    · have hbeq : (id == k0) = true := beq_iff_eq.mpr h
      simp [List.lookup, hbeq]
    · have hbeq : (id == k0) = false := beq_eq_false_iff_ne.mpr h
      simp only [List.cons_append, List.lookup, hbeq]
      exact ih id

/-- Lemma: an association-list lookup misses exactly when the key is not
among the keys. -/
lemma lookup_none_iff :
    ∀ (out : List (String × Bool)) (id : String),
      out.lookup id = none ↔ id ∉ out.map Prod.fst := by
  intro out
  induction out with
  | nil => intro id; simp [List.lookup]
  | cons p rest ih =>
    intro id
    obtain ⟨k0, v0⟩ := p
    by_cases h : id = k0
    · have hbeq : (id == k0) = true := beq_iff_eq.mpr h
      simp [List.lookup, hbeq, h]
    · have hbeq : (id == k0) = false := beq_eq_false_iff_ne.mpr h
      simp only [List.lookup, hbeq, List.map_cons, List.mem_cons, h, false_or]
      exact ih id

/-- Lemma: characterization of the `taintedNodes` loop when no referenced
node lookup fails, for any accumulator whose entries agree with
`taintValue`. -/
lemma taintedNodesGo_ok {Err : Type} (nodeByID : String → Except Err (Option Node))
    (shouldDrainNode : String → Bool) :
    ∀ (allocs : List Allocation) (out : List (String × Bool)),
      (∀ a ∈ allocs, ∀ e, nodeByID a.nodeID ≠ .error e) →
      (∀ id b, out.lookup id = some b →
        taintValue nodeByID shouldDrainNode id = some b) →
      (out.map Prod.fst).Nodup →
      ∃ m, taintedNodesGo nodeByID shouldDrainNode allocs out = .ok m ∧
        (m.map Prod.fst).Nodup ∧
        (∀ id, (m.lookup id).isSome ↔
          ((out.lookup id).isSome ∨ ∃ a ∈ allocs, a.nodeID = id)) ∧
        (∀ id b, m.lookup id = some b →
          taintValue nodeByID shouldDrainNode id = some b) := by
  intro allocs
  induction allocs with
  | nil =>
    intro out _ hval hnd
    refine ⟨out, rfl, hnd, ?_, hval⟩
    intro id
    simp
  | cons a rest ih =>
    intro out herr hval hnd
    have herr' : ∀ x ∈ rest, ∀ e, nodeByID x.nodeID ≠ .error e :=
      fun x hx => herr x (List.mem_cons_of_mem _ hx)
    rw [taintedNodesGo]
    by_cases hmem : (out.lookup a.nodeID).isSome
    · rw [if_pos hmem]
      obtain ⟨m, hm, hnd', hiff, hval'⟩ := ih out herr' hval hnd
      refine ⟨m, hm, hnd', ?_, hval'⟩
      intro id
      rw [hiff id]
      simp only [List.exists_mem_cons_iff]
      constructor
      · rintro (hid | hid)
        · exact Or.inl hid
        · exact Or.inr (Or.inr hid)
      · rintro (hid | hid | hid)
        · exact Or.inl hid
        · rw [← hid]
          exact Or.inl hmem
        · exact Or.inr hid
    · rw [if_neg hmem]
      have hnotkey : a.nodeID ∉ out.map Prod.fst := by
        rw [← lookup_none_iff]
        cases hlk : out.lookup a.nodeID with
        | none => rfl
        | some b => rw [hlk] at hmem; simp at hmem
      have hstep : ∀ (bv : Bool),
          taintValue nodeByID shouldDrainNode a.nodeID = some bv →
          ∃ m, taintedNodesGo nodeByID shouldDrainNode rest
              (out ++ [(a.nodeID, bv)]) = .ok m ∧
            (m.map Prod.fst).Nodup ∧
            (∀ id, (m.lookup id).isSome ↔
              ((out.lookup id).isSome ∨ ∃ x ∈ a :: rest, x.nodeID = id)) ∧
            (∀ id b, m.lookup id = some b →
              taintValue nodeByID shouldDrainNode id = some b) := by
        intro bv hbv
        have hval' : ∀ id b, (out ++ [(a.nodeID, bv)]).lookup id = some b →
            taintValue nodeByID shouldDrainNode id = some b := by
          intro id b hlk
          rw [lookup_concat] at hlk
          cases hout : out.lookup id with
          | some b0 =>
            rw [hout] at hlk
            exact hval id b (by rw [hout]; exact hlk)
          | none =>
            rw [hout] at hlk
            by_cases hid : id = a.nodeID
            · rw [if_pos hid] at hlk
              cases hlk
              rw [hid]
              exact hbv
            · rw [if_neg hid] at hlk
              cases hlk
        have hnd' : ((out ++ [(a.nodeID, bv)]).map Prod.fst).Nodup := by
          rw [List.map_append]
          simp only [List.map_cons, List.map_nil]
          rw [List.nodup_append]
          exact ⟨hnd, List.nodup_singleton _,
            fun x hx hx2 => by
              simp only [List.mem_singleton] at hx2
              subst hx2
              exact hnotkey hx⟩
        obtain ⟨m, hm, hndm, hiff, hvalm⟩ :=
          ih (out ++ [(a.nodeID, bv)]) herr' hval' hnd'
        refine ⟨m, hm, hndm, ?_, hvalm⟩
        intro id
        rw [hiff id]
        have hconc : ((out ++ [(a.nodeID, bv)]).lookup id).isSome ↔
            ((out.lookup id).isSome ∨ id = a.nodeID) := by
          rw [lookup_concat]
          cases hout : out.lookup id with
          | some b0 => simp
          | none =>
            by_cases hid : id = a.nodeID
            · simp [hid]
            · simp [hid]
        rw [hconc]
        simp only [List.exists_mem_cons_iff]
        constructor
        · rintro ((hid | hid) | hid)
          · exact Or.inl hid
          · exact Or.inr (Or.inl hid.symm)
          · exact Or.inr (Or.inr hid)
        · rintro (hid | hid | hid)
          · exact Or.inl (Or.inl hid)
          · exact Or.inl (Or.inr hid.symm)
          · exact Or.inr hid
      cases hnb : nodeByID a.nodeID with
      | error e => exact absurd hnb (herr a (List.mem_cons_self a rest) e)
      | ok v =>
        cases v with
        | none =>
          exact hstep true (by simp [taintValue, hnb])
        | some node =>
          exact hstep (shouldDrainNode node.status || node.drain)
            (by simp [taintValue, hnb])

/-- Lemma: the `taintedNodes` loop propagates a lookup failure, provided
the accumulator only memoizes ids whose lookup succeeds. -/
lemma taintedNodesGo_err {Err : Type} (nodeByID : String → Except Err (Option Node))
    (shouldDrainNode : String → Bool) :
    ∀ (allocs : List Allocation) (out : List (String × Bool)),
      (∀ id, (out.lookup id).isSome → ∀ e, nodeByID id ≠ .error e) →
      (∃ a ∈ allocs, ∃ e, nodeByID a.nodeID = .error e) →
      ∃ e, taintedNodesGo nodeByID shouldDrainNode allocs out = .error e ∧
        ∃ a ∈ allocs, nodeByID a.nodeID = .error e := by
  intro allocs
  induction allocs with
  | nil =>
    intro out _ hex
    simp at hex
  | cons a rest ih =>
    intro out hout hex
    rw [taintedNodesGo]
    by_cases hmem : (out.lookup a.nodeID).isSome
    · rw [if_pos hmem]
      have hex' : ∃ x ∈ rest, ∃ e, nodeByID x.nodeID = .error e := by
        obtain ⟨x, hx, e, hxe⟩ := hex
        rcases List.mem_cons.mp hx with heq | hxmem
        · subst heq
          exact absurd hxe (hout x.nodeID hmem e)
        · exact ⟨x, hxmem, e, hxe⟩
      obtain ⟨e, heq, x, hx, hxe⟩ := ih out hout hex'
      exact ⟨e, heq, x, List.mem_cons_of_mem _ hx, hxe⟩
    · rw [if_neg hmem]
      cases hnb : nodeByID a.nodeID with
      | error e => exact ⟨e, rfl, a, List.mem_cons_self a rest, hnb⟩
      | ok v =>
        have hstep : ∀ (bv : Bool),
            ∃ e, taintedNodesGo nodeByID shouldDrainNode rest
                (out ++ [(a.nodeID, bv)]) = .error e ∧
              ∃ x ∈ a :: rest, nodeByID x.nodeID = .error e := by
          intro bv
          have hout' : ∀ id, ((out ++ [(a.nodeID, bv)]).lookup id).isSome →
              ∀ e, nodeByID id ≠ .error e := by
            intro id hid e
            rw [lookup_concat] at hid
            cases hzz : out.lookup id with
            | some b0 =>
              exact hout id (by rw [hzz]; rfl) e
            | none =>
              rw [hzz] at hid
              by_cases hida : id = a.nodeID
              · rw [hida, hnb]
                intro hcontra
                cases hcontra
              · rw [if_neg hida] at hid
                simp at hid
          have hex' : ∃ x ∈ rest, ∃ e, nodeByID x.nodeID = .error e := by
            obtain ⟨x, hx, e, hxe⟩ := hex
            rcases List.mem_cons.mp hx with heq | hxmem
            · subst heq
              rw [hnb] at hxe
              cases hxe
            · exact ⟨x, hxmem, e, hxe⟩
          obtain ⟨e, heq, x, hx, hxe⟩ := ih (out ++ [(a.nodeID, bv)]) hout' hex'
          exact ⟨e, heq, x, List.mem_cons_of_mem _ hx, hxe⟩
        cases v with
        | none => exact hstep true
        | some node => exact hstep (shouldDrainNode node.status || node.drain)

/-- C6: assuming every NodeByID lookup succeeds, taintedNodes returns a map
whose keys are exactly the distinct node ids referenced by the
allocations, mapping an absent node to true and a present node to
(status requires draining) OR (drain flag); if a referenced node's lookup
errors, taintedNodes returns that error and no map. -/
theorem taintedNodes_spec {Err : Type} (nodeByID : String → Except Err (Option Node))
    (shouldDrainNode : String → Bool) (allocs : List Allocation) :
    ((∀ a ∈ allocs, ∀ e, nodeByID a.nodeID ≠ .error e) →
      ∃ m, taintedNodes nodeByID shouldDrainNode allocs = .ok m ∧
        (m.map Prod.fst).Nodup ∧
        (∀ id, (m.lookup id).isSome ↔ ∃ a ∈ allocs, a.nodeID = id) ∧
        (∀ id b, m.lookup id = some b →
          taintValue nodeByID shouldDrainNode id = some b)) ∧
    ((∃ a ∈ allocs, ∃ e, nodeByID a.nodeID = .error e) →
      ∃ e, taintedNodes nodeByID shouldDrainNode allocs = .error e ∧
        ∃ a ∈ allocs, nodeByID a.nodeID = .error e) := by
  constructor
  · intro herr
    obtain ⟨m, hm, hnd, hiff, hval⟩ := taintedNodesGo_ok nodeByID shouldDrainNode allocs []
      herr (by intro id b h; simp [List.lookup] at h) (by simp)
    refine ⟨m, hm, hnd, ?_, hval⟩
    intro id
    rw [hiff id]
    simp [List.lookup]
  · intro hex
    exact taintedNodesGo_err nodeByID shouldDrainNode allocs []
      (by intro id h; simp [List.lookup] at h) hex

/-- Node fixture for the taintedNodes witness: a draining node n1. -/
def nodeN1 : Node := ⟨"n1", "dc1", "ready", true⟩

/-- State fixture: n1 exists, everything else is absent. -/
def nbW : String → Except String (Option Node) :=
  fun id => if id = "n1" then .ok (some nodeN1) else .ok none

/-- Allocation fixture referencing node n1. -/
def allocN1 : Allocation :=
  ⟨"id2", "e0", "web.api[1]", "n1", jobWold, [], ⟨0, 0, 0, 0, []⟩, "run", "running", ""⟩

/-- Witness for C6 at a concrete input: one allocation on the existing,
draining node n1; every lookup succeeds. -/
theorem taintedNodes_spec_witness :
    ∃ m, taintedNodes nbW (fun s => decide (s = "down")) [allocN1] = .ok m ∧
      (m.map Prod.fst).Nodup ∧
      (∀ id, (m.lookup id).isSome ↔ ∃ a ∈ [allocN1], a.nodeID = id) ∧
      (∀ id b, m.lookup id = some b →
        taintValue nbW (fun s => decide (s = "down")) id = some b) := by
  refine (taintedNodes_spec nbW (fun s => decide (s = "down")) [allocN1]).1 ?_
  intro a ha e
  simp only [List.mem_singleton] at ha
  subst ha
  simp [nbW, allocN1]

/-- Lemma: phase 1 of the diff distributes the existing allocations over
the four non-place buckets: the multiset of names across those buckets is
the multiset of existing allocation names. -/
lemma diffExistingGo_names_perm (job : Job) (tainted : String → Bool)
    (required : List (String × TaskGroup)) :
    ∀ allocs : List Allocation,
      (((diffExistingGo job tainted required allocs).update ++
        (diffExistingGo job tainted required allocs).migrate ++
        (diffExistingGo job tainted required allocs).stop ++
        (diffExistingGo job tainted required allocs).ignore).map
          (fun t => t.name)).Perm
        (allocs.map (fun a => a.name)) := by
  intro allocs
  induction allocs with
  | nil => simp [diffExistingGo]
  | cons a rest ih =>
    rw [List.perm_iff_count]
    intro x
    have ihx := ih.count_eq x
    simp only [List.map_append, List.count_append] at ihx
    rw [diffExistingGo]
    split
    · simp [List.count_append, List.count_cons]
      split_ifs <;> omega
    · split_ifs
      · simp [List.count_append, List.count_cons]
        split_ifs <;> omega
      · simp [List.count_append, List.count_cons]
        omega
      · simp [List.count_append, List.count_cons]
        omega

/-- C1 (amended): provided the existing allocations have pairwise distinct
names and the desired map has distinct keys (as a Go map guarantees), the
five diffAllocs buckets are pairwise disjoint and their name union is
exactly existing names ∪ desired names, each name appearing exactly once. -/
theorem diffAllocs_partition (job : Job) (tainted : String → Bool)
    (required : List (String × TaskGroup)) (allocs : List Allocation)
    (hA : (allocs.map (fun a => a.name)).Nodup)
    (hR : (required.map Prod.fst).Nodup) :
    ((diffAllocs job tainted required allocs).allNames).Nodup ∧
    (∀ x, x ∈ (diffAllocs job tainted required allocs).allNames ↔
      (x ∈ allocs.map (fun a => a.name) ∨ x ∈ required.map Prod.fst)) := by
  have hperm := diffExistingGo_names_perm job tainted required allocs
  have hall : (diffAllocs job tainted required allocs).allNames =
      ((required.filter
          (fun p => decide (p.1 ∉ allocs.map (fun a => a.name)))).map Prod.fst) ++
        (((diffExistingGo job tainted required allocs).update ++
          (diffExistingGo job tainted required allocs).migrate ++
          (diffExistingGo job tainted required allocs).stop ++
          (diffExistingGo job tainted required allocs).ignore).map
            (fun t => t.name)) := by
    simp [diffResult.allNames, diffAllocs, List.map_append, List.map_map,
      List.append_assoc, Function.comp]
  have hplace_sub : ((required.filter
      (fun p => decide (p.1 ∉ allocs.map (fun a => a.name)))).map Prod.fst).Sublist
      (required.map Prod.fst) :=
    (List.filter_sublist required).map Prod.fst
  have hplace_mem : ∀ x, x ∈ ((required.filter
      (fun p => decide (p.1 ∉ allocs.map (fun a => a.name)))).map Prod.fst) ↔
      (x ∈ required.map Prod.fst ∧ x ∉ allocs.map (fun a => a.name)) := by
    intro x
    simp only [List.mem_map, List.mem_filter, decide_eq_true_eq]
    constructor
    · rintro ⟨p, ⟨hp, hnot⟩, rfl⟩
      exact ⟨⟨p, hp, rfl⟩, hnot⟩
    · rintro ⟨⟨p, hp, rfl⟩, hnot⟩
      exact ⟨p, ⟨hp, hnot⟩, rfl⟩
  constructor
  · rw [hall]
    rw [List.nodup_append]
    refine ⟨hplace_sub.nodup hR, (hperm.nodup_iff).mpr hA, ?_⟩
    intro x hx hx2
    have h1 := (hplace_mem x).mp hx
    have h2 := hperm.mem_iff.mp hx2
    exact h1.2 h2
  · intro x
    rw [hall, List.mem_append, hplace_mem x, hperm.mem_iff]
    tauto

/-- Allocation fixture with a short duplicate-prone name. -/
def allocDup : Allocation :=
  ⟨"id3", "e0", "a", "n1", jobWold, [], ⟨0, 0, 0, 0, []⟩, "run", "running", ""⟩

/-- Counterexample for C1 as stated: with two existing allocations that
share the name "a", that name appears twice across the buckets (both
occurrences land in stop), so the partition property fails. -/
theorem diffAllocs_partition_cex :
    ¬ (((diffAllocs jobW (fun _ => false) [] [allocDup, allocDup]).allNames).Nodup ∧
      (∀ x, x ∈ (diffAllocs jobW (fun _ => false) [] [allocDup, allocDup]).allNames ↔
        (x ∈ [allocDup, allocDup].map (fun a => a.name) ∨
          x ∈ ([] : List (String × TaskGroup)).map Prod.fst))) := by
  intro h
  have h1 := h.1
  have heval : (diffAllocs jobW (fun _ => false) [] [allocDup, allocDup]).allNames
      = ["a", "a"] := rfl
  rw [heval] at h1
  simp at h1

/-- Witness for the amended C1: distinct names, one shared between the
desired map and the existing allocation. -/
theorem diffAllocs_partition_witness :
    ((diffAllocs jobW (fun _ => false)
        [("web.api[0]", tgW), ("web.api[1]", tgW)] [allocW]).allNames).Nodup ∧
    (∀ x, x ∈ (diffAllocs jobW (fun _ => false)
        [("web.api[0]", tgW), ("web.api[1]", tgW)] [allocW]).allNames ↔
      (x ∈ [allocW].map (fun a => a.name) ∨
        x ∈ [("web.api[0]", tgW), ("web.api[1]", tgW)].map Prod.fst)) :=
  diffAllocs_partition jobW (fun _ => false)
    [("web.api[0]", tgW), ("web.api[1]", tgW)] [allocW] (by decide) (by decide)

/-- Lemma: retracting a just-staged update restores the plan exactly. -/
lemma popUpdate_appendUpdate (p : Plan) (a : Allocation) (status desc : String) :
    (p.appendUpdate (some a) status desc).popUpdate a = p := by
  unfold Plan.appendUpdate Plan.popUpdate
  simp [List.getLast?_concat, List.dropLast_concat]

/-- Lemma: the task resources produced by the network-restore step carry,
for every task they bind, the networks of the existing allocation's
resources for that task. -/
lemma restoreNetworks_lookup (orig : List (String × Resources)) :
    ∀ (opt out : List (String × Resources)), restoreNetworks orig opt = some out →
      ∀ task r, out.lookup task = some r →
        ∃ er, orig.lookup task = some er ∧ r.networks = er.networks := by
  intro opt
  induction opt with
  | nil =>
    intro out h task r hlk
    cases h
    simp [List.lookup] at hlk
  | cons p rest ih =>
    intro out h task r hlk
    obtain ⟨task0, r0⟩ := p
    rw [restoreNetworks] at h
    cases horig : orig.lookup task0 with
    | none => rw [horig] at h; cases h
    | some er0 =>
      rw [horig] at h
      cases hrest : restoreNetworks orig rest with
      | none => rw [hrest] at h; cases h
      | some out0 =>
        rw [hrest] at h
        cases h
        by_cases htask : task = task0
        · subst htask
          have hbeq : (task == task) = true := beq_iff_eq.mpr rfl
          simp only [List.lookup, hbeq] at hlk
          cases hlk
          exact ⟨er0, horig, rfl⟩
        · have hbeq : (task == task0) = false := beq_eq_false_iff_ne.mpr htask
          simp only [List.lookup, hbeq] at hlk
          exact ih out0 hrest task r hlk

/-- Lemma: the loop body's outcome kind and payload are plan-independent;
a kept candidate leaves the plan unchanged (the speculative stop is
retracted) and a resolved candidate appends exactly its new allocation. -/
lemma inplaceStep_classify {Err : Type} (nodeByID : String → Except Err (Option Node))
    (select' : Node → TaskGroup → Option (List (String × Resources) × Resources))
    (eval : Evaluation) (metrics : String) (job : Job) (plan : Plan) (t : allocTuple) :
    (classifyStep nodeByID select' eval metrics job t = none →
      ∃ m, inplaceStep nodeByID select' eval metrics job plan t = .goPanic m) ∧
    (classifyStep nodeByID select' eval metrics job t = some none →
      inplaceStep nodeByID select' eval metrics job plan t = .keep plan) ∧
    (∀ a, classifyStep nodeByID select' eval metrics job t = some (some a) →
      inplaceStep nodeByID select' eval metrics job plan t =
        .resolved (plan.appendAlloc a)) := by
  unfold classifyStep inplaceStep
  cases t.alloc with
  | none => cases t.taskGroup <;> simp
  | some alloc =>
    cases t.taskGroup with
    | none => simp
    | some tg =>
      simp only
      cases hl : alloc.job.lookupTaskGroup tg.name with
      | none => simp
      | some existing =>
        by_cases hu : tasksUpdated tg existing
        · simp [hu]
        · simp only [hu, if_false, Bool.false_eq_true]
          cases hn : nodeByID alloc.nodeID with
          | error e => simp
          | ok ov =>
            cases ov with
            | none => simp
            | some node =>
              cases hs : select' node tg with
              | none => simp [hs, popUpdate_appendUpdate]
              | some pr =>
                obtain ⟨taskRes, size⟩ := pr
                cases hr : restoreNetworks alloc.taskResources taskRes with
                | none => simp [hs, hr]
                | some newTR => simp [hs, hr, popUpdate_appendUpdate, Plan.appendAlloc]

/-- Lemma: structure of a candidate that the loop body resolves in place. -/
lemma classifyStep_resolved_inv {Err : Type}
    (nodeByID : String → Except Err (Option Node))
    (select' : Node → TaskGroup → Option (List (String × Resources) × Resources))
    (eval : Evaluation) (metrics : String) (job : Job) (t : allocTuple)
    (a : Allocation)
    (h : classifyStep nodeByID select' eval metrics job t = some (some a)) :
    ∃ alloc tg existing node taskRes size newTR,
      t.alloc = some alloc ∧ t.taskGroup = some tg ∧
      alloc.job.lookupTaskGroup tg.name = some existing ∧
      tasksUpdated tg existing = false ∧
      nodeByID alloc.nodeID = .ok (some node) ∧
      select' node tg = some (taskRes, size) ∧
      restoreNetworks alloc.taskResources taskRes = some newTR ∧
      a = { alloc with
              evalID := eval.id
              job := job
              resources := size
              taskResources := newTR
              metrics := metrics
              desiredStatus := AllocDesiredStatusRun
              clientStatus := AllocClientStatusPending } := by
  unfold classifyStep at h
  cases ha : t.alloc with
  | none => rw [ha] at h; cases t.taskGroup <;> simp at h
  | some alloc =>
    rw [ha] at h
    cases htg : t.taskGroup with
    | none => rw [htg] at h; simp at h
    | some tg =>
      rw [htg] at h
      simp only at h
      cases hl : alloc.job.lookupTaskGroup tg.name with
      | none => simp [hl] at h
      | some existing =>
        simp only [hl] at h
        by_cases hu : tasksUpdated tg existing
        · rw [if_pos hu] at h
          simp at h
        · rw [if_neg hu] at h
          cases hn : nodeByID alloc.nodeID with
          | error e => simp [hn] at h
          | ok ov =>
            cases ov with
            | none => simp [hn] at h
            | some node =>
              simp only [hn] at h
              cases hs : select' node tg with
              | none => simp [hs] at h
              | some pr =>
                obtain ⟨taskRes, size⟩ := pr
                simp only [hs] at h
                cases hr : restoreNetworks alloc.taskResources taskRes with
                | none => simp [hr] at h
                | some newTR =>
                  simp only [hr, Option.some.injEq] at h
                  exact ⟨alloc, tg, existing, node, taskRes, size, newTR,
                    rfl, rfl, hl, by simpa using hu, hn, hs, hr, h.symm⟩

/-- Lemma: the compaction step of the in-place loop (move the last live
element into slot i, then shrink) keeps the processed prefix intact and
permutes the unprocessed suffix minus the processed element. -/
lemma set_getLast_dropLast_spec {α : Type} (arr : List α) (i : Nat) (h : i < arr.length)
    (hne : arr ≠ []) :
    ((arr.set i (arr.getLast hne)).dropLast.take i = arr.take i) ∧
    (((arr.set i (arr.getLast hne)).dropLast.drop i).Perm (arr.drop (i + 1))) := by
  have hset : arr.set i (arr.getLast hne) =
      arr.take i ++ arr.getLast hne :: arr.drop (i + 1) := by
    rw [List.set_eq_take_append_cons_drop, if_pos h]
  have hlenA : (arr.take i).length = i := by
    rw [List.length_take]; omega
  rw [hset]
  by_cases hB : arr.drop (i + 1) = []
  · rw [hB]
    rw [List.dropLast_concat]
    exact ⟨List.take_of_length_le (le_of_eq hlenA),
      by rw [List.drop_eq_nil_of_le (le_of_eq hlenA)]⟩
  · have hdl : (arr.take i ++ arr.getLast hne :: arr.drop (i + 1)).dropLast
        = arr.take i ++ arr.getLast hne :: (arr.drop (i + 1)).dropLast := by
      rw [List.dropLast_append_of_ne_nil _ (by simp), List.dropLast_cons_of_ne_nil hB]
    rw [hdl]
    refine ⟨List.take_left' hlenA, ?_⟩
    rw [List.drop_left' hlenA]
    have hlast : arr.getLast hne = (arr.drop (i + 1)).getLast hB := by
      have h1 := List.getLast?_eq_getLast arr hne
      have h2 := List.getLast?_eq_getLast (arr.drop (i + 1)) hB
      have e : arr.take (i + 1) ++ arr.drop (i + 1) = arr := List.take_append_drop _ _
      have h3 : arr.getLast? = (arr.drop (i + 1)).getLast? := by
        conv_lhs => rw [← e]
        exact List.getLast?_append_of_ne_nil _ hB
      rw [h1, h2] at h3
      exact Option.some_inj.mp h3
    rw [hlast]
    have hperm := List.perm_append_singleton ((arr.drop (i + 1)).getLast hB)
      ((arr.drop (i + 1)).dropLast)
    rw [List.dropLast_append_getLast hB] at hperm
    exact hperm.symm

/-- Lemma: full characterization of the in-place loop, by induction on the
remaining live length.  Provided no candidate panics, the loop succeeds;
the residual is (as a multiset) the processed prefix plus the unresolved
remainder, the staged updates are net unchanged, and the plan gains
exactly one new allocation per resolved candidate. -/
lemma inplaceLoop_spec {Err : Type} (nodeByID : String → Except Err (Option Node))
    (select' : Node → TaskGroup → Option (List (String × Resources) × Resources))
    (eval : Evaluation) (metrics : String) (job : Job) :
    ∀ (fuel : Nat) (arr : List allocTuple) (i : Nat) (plan : Plan),
      arr.length - i ≤ fuel →
      (∀ t ∈ arr, classifyStep nodeByID select' eval metrics job t ≠ none) →
      ∃ plan' res,
        inplaceLoop nodeByID select' eval metrics job plan arr i = .ok (plan', res) ∧
        res.Perm (arr.take i ++ (arr.drop i).filter
          (fun t => decide (classifyStep nodeByID select' eval metrics job t = some none))) ∧
        plan'.updates = plan.updates ∧
        plan'.allocs.Perm (plan.allocs ++ (arr.drop i).filterMap
          (fun t => (classifyStep nodeByID select' eval metrics job t).bind id)) := by
  intro fuel
  induction fuel with
  | zero =>
    intro arr i plan hfuel hwf
    have hle : arr.length ≤ i := by omega
    rw [inplaceLoop, dif_neg (by omega)]
    refine ⟨plan, arr, rfl, ?_, rfl, ?_⟩
    · rw [List.take_of_length_le hle, List.drop_eq_nil_of_le hle]
      simp
    · rw [List.drop_eq_nil_of_le hle]
      simp
  | succ n ih =>
    intro arr i plan hfuel hwf
    by_cases hlt : i < arr.length
    · rw [inplaceLoop, dif_pos hlt]
      have htmem : arr[i] ∈ arr := List.getElem_mem hlt
      have hcl := hwf arr[i] htmem
      have hstep := inplaceStep_classify nodeByID select' eval metrics job plan arr[i]
      have hdropi : arr.drop i = arr[i] :: arr.drop (i + 1) := List.drop_eq_getElem_cons hlt
      cases hc : classifyStep nodeByID select' eval metrics job arr[i] with
      | none => exact absurd hc hcl
      | some oa =>
        cases oa with
        | none =>
          simp only [hstep.2.1 hc]
          obtain ⟨plan', res, hrun, hres, hupd, hall⟩ := ih arr (i + 1) plan (by omega) hwf
          refine ⟨plan', res, hrun, ?_, hupd, ?_⟩
          · have htake : arr.take (i + 1) = arr.take i ++ [arr[i]] := by
              rw [List.take_succ]
              simp [List.getElem?_eq_getElem hlt]
            rw [hdropi, List.filter_cons, if_pos (by simp [hc])]
            have heq : arr.take (i + 1) ++ (List.filter
                (fun t => decide (classifyStep nodeByID select' eval metrics job t = some none))
                (arr.drop (i + 1))) = arr.take i ++ arr[i] :: (List.filter
                (fun t => decide (classifyStep nodeByID select' eval metrics job t = some none))
                (arr.drop (i + 1))) := by
              rw [htake, List.append_assoc]
              rfl
            rw [← heq]
            exact hres
          · rw [hdropi, List.filterMap_cons]
            simpa [hc] using hall
        | some a =>
          simp only [hstep.2.2 a hc]
          have hne : arr ≠ [] := List.ne_nil_of_length_pos (by omega)
          have hlen' : ((arr.set i (arr.getLast hne)).dropLast).length = arr.length - 1 := by
            rw [List.length_dropLast, List.length_set]
          have hwf' : ∀ t ∈ (arr.set i (arr.getLast hne)).dropLast,
              classifyStep nodeByID select' eval metrics job t ≠ none := by
            intro t ht
            have ht2 : t ∈ arr.set i (arr.getLast hne) := List.dropLast_subset _ ht
            rcases List.mem_or_eq_of_mem_set ht2 with h1 | h1
            · exact hwf t h1
            · rw [h1]
              exact hwf _ (List.getLast_mem hne)
          obtain ⟨plan', res, hrun, hres, hupd, hall⟩ :=
            ih ((arr.set i (arr.getLast hne)).dropLast) i (plan.appendAlloc a)
              (by omega) hwf'
          obtain ⟨htk, hdp⟩ := set_getLast_dropLast_spec arr i hlt hne
          refine ⟨plan', res, hrun, ?_, ?_, ?_⟩
          · rw [htk] at hres
            have hfperm := hdp.filter
              (fun t => decide (classifyStep nodeByID select' eval metrics job t = some none))
            rw [hdropi, List.filter_cons, if_neg (by simp [hc])]
            exact hres.trans (List.Perm.append_left _ hfperm)
          · rw [hupd]
            rfl
          · have hfm := hdp.filterMap
              (fun t => (classifyStep nodeByID select' eval metrics job t).bind id)
            rw [hdropi, List.filterMap_cons]
            have hstep1 : plan'.allocs.Perm ((plan.allocs ++ [a]) ++
                ((arr.drop (i + 1)).filterMap
                  (fun t => (classifyStep nodeByID select' eval metrics job t).bind id))) := by
              refine hall.trans ?_
              exact List.Perm.append_left _ hfm
            refine hstep1.trans ?_
            rw [List.append_assoc]
            simp [hc]
    · rw [inplaceLoop, dif_neg hlt]
      have hle : arr.length ≤ i := by omega
      refine ⟨plan, arr, rfl, ?_, rfl, ?_⟩
      · rw [List.take_of_length_le hle, List.drop_eq_nil_of_le hle]
        simp
      · rw [List.drop_eq_nil_of_le hle]
        simp

/-- C4: inplaceUpdate accounts for every candidate exactly once: the
residual is (as a multiset) exactly the unresolved candidates, the staged
stop updates are net unchanged (every speculative stop is retracted
regardless of fit outcome), and exactly one new allocation record is
appended per resolved candidate; no candidate is dropped.  The hypothesis
excludes candidates on which the Go code would dereference nil (a tuple
without an allocation or task group, a job snapshot without the named
group, or selected task resources naming a task the allocation lacks) —
the spec's data model guarantees update candidates are of this shape. -/
theorem inplaceUpdate_accounting {Err : Type}
    (nodeByID : String → Except Err (Option Node))
    (select' : Node → TaskGroup → Option (List (String × Resources) × Resources))
    (eval : Evaluation) (metrics : String) (job : Job) (plan : Plan)
    (updates : List allocTuple)
    (hwf : ∀ t ∈ updates, classifyStep nodeByID select' eval metrics job t ≠ none) :
    ∃ plan' res,
      inplaceUpdate nodeByID select' eval metrics job plan updates = .ok (plan', res) ∧
      res.Perm (updates.filter
        (fun t => decide (classifyStep nodeByID select' eval metrics job t = some none))) ∧
      plan'.updates = plan.updates ∧
      plan'.allocs.Perm (plan.allocs ++ updates.filterMap
        (fun t => (classifyStep nodeByID select' eval metrics job t).bind id)) := by
  obtain ⟨plan', res, hrun, hres, hupd, hall⟩ :=
    inplaceLoop_spec nodeByID select' eval metrics job updates.length updates 0 plan
      (by omega) hwf
  exact ⟨plan', res, hrun, by simpa using hres, hupd, by simpa using hall⟩

/-- C3: every allocation record the plan gains from inplaceUpdate comes
from a resolved candidate that passed the structural-update test of step 1
(so its per-network dynamic-port counts matched), and its per-task network
resource fields are exactly those of the original allocation's
corresponding task.  Hypothesis as in the accounting theorem. -/
theorem inplaceUpdate_network_preservation {Err : Type}
    (nodeByID : String → Except Err (Option Node))
    (select' : Node → TaskGroup → Option (List (String × Resources) × Resources))
    (eval : Evaluation) (metrics : String) (job : Job) (plan : Plan)
    (updates : List allocTuple)
    (hwf : ∀ t ∈ updates, classifyStep nodeByID select' eval metrics job t ≠ none) :
    ∃ plan' res,
      inplaceUpdate nodeByID select' eval metrics job plan updates = .ok (plan', res) ∧
      ∀ a ∈ plan'.allocs, a ∈ plan.allocs ∨
        ∃ t ∈ updates, ∃ orig tg existing,
          t.alloc = some orig ∧ t.taskGroup = some tg ∧
          orig.job.lookupTaskGroup tg.name = some existing ∧
          tasksUpdated tg existing = false ∧
          (∀ task r, a.taskResources.lookup task = some r →
            ∃ er, orig.taskResources.lookup task = some er ∧
              r.networks = er.networks) := by
  obtain ⟨plan', res, hrun, hres, hupd, hall⟩ :=
    inplaceLoop_spec nodeByID select' eval metrics job updates.length updates 0 plan
      (by omega) hwf
  refine ⟨plan', res, hrun, ?_⟩
  intro a ha
  have hmem : a ∈ plan.allocs ++ updates.filterMap
      (fun t => (classifyStep nodeByID select' eval metrics job t).bind id) := by
    have := hall.mem_iff.mp ha
    simpa using this
  rcases List.mem_append.mp hmem with h1 | h2
  · exact Or.inl h1
  · right
    rcases List.mem_filterMap.mp h2 with ⟨t, htmem, hft⟩
    have hcr : classifyStep nodeByID select' eval metrics job t = some (some a) := by
      cases hcc : classifyStep nodeByID select' eval metrics job t with
      | none => exact absurd hcc (hwf t htmem)
      | some oa =>
        cases oa with
        | none => rw [hcc] at hft; simp at hft
        | some a0 =>
          rw [hcc] at hft
          simp at hft
          subst hft
          rfl
    obtain ⟨alloc, tg, existing, node, taskRes, size, newTR,
      ht1, ht2, ht3, ht4, _, _, ht7, ht8⟩ :=
      classifyStep_resolved_inv nodeByID select' eval metrics job t a hcr
    refine ⟨t, htmem, alloc, tg, existing, ht1, ht2, ht3, ht4, ?_⟩
    intro task r hlk
    have htr : a.taskResources = newTR := by rw [ht8]
    rw [htr] at hlk
    exact restoreNetworks_lookup alloc.taskResources taskRes newTR ht7 task r hlk

/-- Network fixture of the existing allocation (two dynamic ports). -/
def netA : NetworkResource := ⟨"eth0", "", "10.0.0.5", 100, [22], ["http", "admin"]⟩

/-- Network fixture offered by the fit selection (same dynamic port count,
different bandwidth). -/
def netB : NetworkResource := ⟨"eth0", "", "10.0.0.5", 50, [], ["http", "admin"]⟩

/-- Resources of the existing allocation's task. -/
def resA : Resources := ⟨500, 256, 0, 0, [netA]⟩

/-- Resources returned by the fit selection. -/
def resB : Resources := ⟨250, 128, 0, 0, [netB]⟩

/-- Task fixture of the shared task group. -/
def taskA : Task := ⟨"srv", "exec", [("cmd", "run")], resA⟩

/-- Task group shared by the old and new job versions. -/
def tgA : TaskGroup := ⟨"api", 1, [taskA]⟩

/-- Old job version (modify-index 4), the allocation's snapshot. -/
def jobA4 : Job := ⟨"web", [tgA], 4⟩

/-- New job version (modify-index 5). -/
def jobA5 : Job := ⟨"web", [tgA], 5⟩

/-- Existing allocation fixture for the in-place update scenario. -/
def allocA : Allocation :=
  ⟨"a1", "e0", "web.api[0]", "n1", jobA4, [("srv", resA)], resA, "run", "running", "m0"⟩

/-- Node fixture hosting allocA. -/
def nodeA : Node := ⟨"n1", "dc1", "ready", false⟩

/-- State fixture: only n1 exists. -/
def nbA : String → Except String (Option Node) :=
  fun id => if id = "n1" then .ok (some nodeA) else .ok none

/-- Fit fixture: always offers resB for the task srv. -/
def selA : Node → TaskGroup → Option (List (String × Resources) × Resources) :=
  fun _ _ => some ([("srv", resB)], resB)

/-- Evaluation fixture. -/
def evalA : Evaluation := ⟨"e1"⟩

/-- Update candidate fixture: allocA against the new job version. -/
def tupA : allocTuple := ⟨"web.api[0]", some tgA, some allocA⟩

/-- Witness for C4 at the concrete one-candidate scenario. -/
theorem inplaceUpdate_accounting_witness :
    ∃ plan' res,
      inplaceUpdate nbA selA evalA "m1" jobA5 emptyPlan [tupA] = .ok (plan', res) ∧
      res.Perm ([tupA].filter
        (fun t => decide (classifyStep nbA selA evalA "m1" jobA5 t = some none))) ∧
      plan'.updates = emptyPlan.updates ∧
      plan'.allocs.Perm (emptyPlan.allocs ++ [tupA].filterMap
        (fun t => (classifyStep nbA selA evalA "m1" jobA5 t).bind id)) :=
  inplaceUpdate_accounting nbA selA evalA "m1" jobA5 emptyPlan [tupA] (by decide)

/-- Witness for C3 at the concrete one-candidate scenario. -/
theorem inplaceUpdate_network_preservation_witness :
    ∃ plan' res,
      inplaceUpdate nbA selA evalA "m1" jobA5 emptyPlan [tupA] = .ok (plan', res) ∧
      ∀ a ∈ plan'.allocs, a ∈ emptyPlan.allocs ∨
        ∃ t ∈ [tupA], ∃ orig tg existing,
          t.alloc = some orig ∧ t.taskGroup = some tg ∧
          orig.job.lookupTaskGroup tg.name = some existing ∧
          tasksUpdated tg existing = false ∧
          (∀ task r, a.taskResources.lookup task = some r →
            ∃ er, orig.taskResources.lookup task = some er ∧
              r.networks = er.networks) :=
  inplaceUpdate_network_preservation nbA selA evalA "m1" jobA5 emptyPlan [tupA] (by decide)

/-- C9 (amended): for every tracked coordinate whose allocation id and
task name are non-empty, processing never panics and a copy failure is
only logged and skipped; a whole scan over such coordinates processes
every coordinate, and each outcome is either a successful copy or a
logged-and-ignored copy error.  (A coordinate with an empty allocation id
or task name makes CgroupID panic and aborts the scan — see the
counterexample.) -/
theorem cpusetScan_nonfatal {CopyErr : Type} (useV2 : Bool) (parent : String)
    (copyCpuset : String → String → Option CopyErr) (coords : List coordinate)
    (h : ∀ c ∈ coords, c.allocID ≠ "" ∧ c.task ≠ "") :
    (cpusetScan useV2 parent copyCpuset coords).2 = none ∧
    ((cpusetScan useV2 parent copyCpuset coords).1.map Prod.fst = coords) ∧
    (∀ p ∈ (cpusetScan useV2 parent copyCpuset coords).1,
      p.2 = .copied ∨ ∃ e, p.2 = .loggedErr e) := by
  induction coords with
  | nil => exact ⟨rfl, rfl, by intro p hp; simp [cpusetScan] at hp⟩
  | cons c rest ih =>
    obtain ⟨h1, h2⟩ := h c (List.mem_cons_self c rest)
    have hrest := ih (fun x hx => h x (List.mem_cons_of_mem _ hx))
    have hfix : ∃ o, cpusetFix useV2 parent copyCpuset c = o ∧
        (o = .copied ∨ ∃ e, o = .loggedErr e) := by
      unfold cpusetFix coordinate.nomadScope CgroupID
      rw [if_neg (by simp [h1, h2])]
      by_cases hv : useV2 = true
      · rw [if_pos hv]
        cases hcp : copyCpuset (v2CgroupRoot ++ "/" ++ parent ++ "/" ++
            (c.allocID ++ "." ++ c.task ++ ".scope"))
            (v2CgroupRoot ++ "/" ++ parent ++ "/" ++ c.dockerScope) with
        | none => exact ⟨.copied, by simp [hcp], Or.inl rfl⟩
        | some e => exact ⟨.loggedErr e, by simp [hcp], Or.inr ⟨e, rfl⟩⟩
      · rw [if_neg hv]
        cases hcp : copyCpuset (v2CgroupRoot ++ "/" ++ parent ++ "/" ++
            (c.task ++ "." ++ c.allocID))
            (v2CgroupRoot ++ "/" ++ parent ++ "/" ++ c.dockerScope) with
        | none => exact ⟨.copied, by simp [hcp], Or.inl rfl⟩
        | some e => exact ⟨.loggedErr e, by simp [hcp], Or.inr ⟨e, rfl⟩⟩
    obtain ⟨o, ho, hok⟩ := hfix
    have hnp : ∀ m, o ≠ .panicked m := by
      intro m hcontra
      rcases hok with h' | ⟨e, h'⟩ <;> rw [h'] at hcontra <;> cases hcontra
    rw [cpusetScan, ho]
    rcases hok with hcopied | ⟨e, hlog⟩
    · subst hcopied
      refine ⟨hrest.1, ?_, ?_⟩
      · simp only [List.map_cons, hrest.2.1]
      · intro p hp
        rcases List.mem_cons.mp hp with heq | hmem
        · rw [heq]
          exact Or.inl rfl
        · exact hrest.2.2 p hmem
    · subst hlog
      refine ⟨hrest.1, ?_, ?_⟩
      · simp only [List.map_cons, hrest.2.1]
      · intro p hp
        rcases List.mem_cons.mp hp with heq | hmem
        · rw [heq]
          exact Or.inr ⟨e, rfl⟩
        · exact hrest.2.2 p hmem

/-- Counterexample for C9 as stated: a tracked coordinate with an empty
allocation id makes CgroupID panic inside fix, and the panic aborts the
scan, so the remaining coordinate is never processed. -/
theorem cpusetScan_cex :
    cpusetFix true "nomad" (fun _ _ => (none : Option Unit)) ⟨"c2", "", "t"⟩ =
      .panicked "empty alloc or task" ∧
    (cpusetScan true "nomad" (fun _ _ => (none : Option Unit))
        [⟨"c2", "", "t"⟩, ⟨"c3", "a3", "t3"⟩]).1 = [] ∧
    (cpusetScan true "nomad" (fun _ _ => (none : Option Unit))
        [⟨"c2", "", "t"⟩, ⟨"c3", "a3", "t3"⟩]).2 = some "empty alloc or task" :=
  ⟨rfl, rfl, rfl⟩

/-- Witness for the amended C9: two well-formed coordinates, one copy
failing, one succeeding; both are processed and nothing is fatal. -/
theorem cpusetScan_nonfatal_witness :
    ((cpusetScan true "nomad"
        (fun s _ => if s = "/sys/fs/cgroup/nomad/a1.t1.scope" then some "io error"
          else none)
        [⟨"c1", "a1", "t1"⟩, ⟨"c2", "a2", "t2"⟩]).2 = none) ∧
    ((cpusetScan true "nomad"
        (fun s _ => if s = "/sys/fs/cgroup/nomad/a1.t1.scope" then some "io error"
          else none)
        [⟨"c1", "a1", "t1"⟩, ⟨"c2", "a2", "t2"⟩]).1.map Prod.fst =
      [⟨"c1", "a1", "t1"⟩, ⟨"c2", "a2", "t2"⟩]) ∧
    (∀ p ∈ (cpusetScan true "nomad"
        (fun s _ => if s = "/sys/fs/cgroup/nomad/a1.t1.scope" then some "io error"
          else none)
        [⟨"c1", "a1", "t1"⟩, ⟨"c2", "a2", "t2"⟩]).1,
      p.2 = .copied ∨ ∃ e, p.2 = .loggedErr e) :=
  cpusetScan_nonfatal true "nomad"
    (fun s _ => if s = "/sys/fs/cgroup/nomad/a1.t1.scope" then some "io error" else none)
    [⟨"c1", "a1", "t1"⟩, ⟨"c2", "a2", "t2"⟩] (by decide)

/-- Lemma: a decimal digit character is not a newline, bracket or dot. -/
lemma digitChar_ok : ∀ r : Nat, r < 10 →
    Nat.digitChar r ≠ '\n' ∧ Nat.digitChar r ≠ '[' ∧
    Nat.digitChar r ≠ ']' ∧ Nat.digitChar r ≠ '.' := by decide

/-- Lemma: every character of a decimal rendering is a digit, hence not a
newline, bracket or dot. -/
lemma decimalDigits_ok : ∀ (n : Nat) (c : Char), c ∈ decimalDigits n →
    c ≠ '\n' ∧ c ≠ '[' ∧ c ≠ ']' ∧ c ≠ '.' := by
  intro n
  induction n using Nat.strong_induction_on with
  | _ n ih =>
    intro c hc
    rw [decimalDigits] at hc
    by_cases h : n < 10
    · rw [if_pos h] at hc
      simp only [List.mem_singleton] at hc
      subst hc
      exact digitChar_ok n h
    · rw [if_neg h] at hc
      rcases List.mem_append.mp hc with h1 | h1
      · exact ih (n / 10) (Nat.div_lt_self (by omega) (by omega)) c h1
      · simp only [List.mem_singleton] at h1
        subst h1
        exact digitChar_ok (n % 10) (Nat.mod_lt _ (by omega))

/-- Lemma: the second greedy `.+` cannot complete the pattern without an
opening bracket ahead of it. -/
lemma matchToLBrack_eq_none : ∀ (Y : List Char), '[' ∉ Y → matchToLBrack Y = none := by
  intro Y
  induction Y with
  | nil => intro _; rfl
  | cons c rest ih =>
    intro h
    have hc : c ≠ '[' := fun e => h (e ▸ List.mem_cons_self c rest)
    have hrest : '[' ∉ rest := fun e => h (List.mem_cons_of_mem _ e)
    simp only [matchToLBrack]
    rw [ih hrest]
    simp [hc]

/-- Lemma: the first greedy `.+` cannot complete the pattern without a dot
ahead of it. -/
lemma matchToDot_eq_none : ∀ (Y : List Char), '.' ∉ Y → matchToDot Y = none := by
  intro Y
  induction Y with
  | nil => intro _; rfl
  | cons c rest ih =>
    intro h
    have hc : c ≠ '.' := fun e => h (e ▸ List.mem_cons_self c rest)
    have hrest : '.' ∉ rest := fun e => h (List.mem_cons_of_mem _ e)
    simp only [matchToDot]
    rw [ih hrest]
    simp [hc]

/-- Lemma: the greedy capture runs to the final closing bracket and
captures exactly the newline-free text before it. -/
lemma matchCaptureClose_closes : ∀ (D : List Char), (∀ c ∈ D, c ≠ '\n') →
    matchCaptureClose (D ++ [']']) = some D := by
  intro D
  induction D with
  | nil => intro _; rfl
  | cons d D' ih =>
    intro h
    have hd : d ≠ '\n' := h d (List.mem_cons_self _ _)
    rw [List.cons_append]
    simp only [matchCaptureClose]
    rw [ih (fun c hc => h c (List.mem_cons_of_mem _ hc))]
    simp [hd]

/-- Lemma: after the second `.+` has consumed a newline-free prefix, the
matcher finds the final opening bracket and captures the discriminator. -/
lemma matchToLBrack_closes (D : List Char)
    (hD : ∀ c ∈ D, c ≠ '\n' ∧ c ≠ '[' ∧ c ≠ ']' ∧ c ≠ '.') :
    ∀ (X : List Char), (∀ c ∈ X, c ≠ '\n') →
      matchToLBrack (X ++ '[' :: (D ++ [']'])) = some D := by
  intro X
  induction X with
  | nil =>
    intro _
    rw [List.nil_append]
    simp only [matchToLBrack]
    have hno : '[' ∉ D ++ [']'] := by
      intro hmem
      rcases List.mem_append.mp hmem with h1 | h1
      · exact (hD _ h1).2.1 rfl
      · simp at h1
    rw [matchToLBrack_eq_none _ hno]
    rw [matchCaptureClose_closes D (fun c hc => (hD c hc).1)]
    simp
  | cons x X' ih =>
    intro h
    have hx : x ≠ '\n' := h x (List.mem_cons_self _ _)
    rw [List.cons_append]
    simp only [matchToLBrack]
    rw [ih (fun c hc => h c (List.mem_cons_of_mem _ hc))]
    simp [hx]

/-- Lemma: the `.+\[(.*)\]` suffix of the pattern matches a nonempty
newline-free segment followed by the bracketed discriminator. -/
lemma matchDotPlusLBrack_closes (D : List Char)
    (hD : ∀ c ∈ D, c ≠ '\n' ∧ c ≠ '[' ∧ c ≠ ']' ∧ c ≠ '.')
    (y : Char) (ys : List Char) (hy : y ≠ '\n') (hys : ∀ c ∈ ys, c ≠ '\n') :
    matchDotPlusLBrack ((y :: ys) ++ '[' :: (D ++ [']'])) = some D := by
  rw [List.cons_append]
  simp only [matchDotPlusLBrack]
  rw [matchToLBrack_closes D hD ys hys]
  simp [hy]

/-- Lemma: between the dot and the final bracket block, the first `.+`
either fails or produces exactly the discriminator capture — no other
capture is reachable there. -/
lemma matchToDot_bound (D : List Char)
    (hD : ∀ c ∈ D, c ≠ '\n' ∧ c ≠ '[' ∧ c ≠ ']' ∧ c ≠ '.') :
    ∀ (Z : List Char), (∀ c ∈ Z, c ≠ '\n') →
      matchToDot (Z ++ '[' :: (D ++ [']'])) = none ∨
      matchToDot (Z ++ '[' :: (D ++ [']'])) = some D := by
  intro Z
  induction Z with
  | nil =>
    intro _
    left
    rw [List.nil_append]
    simp only [matchToDot]
    have hno : '.' ∉ D ++ [']'] := by
      intro hmem
      rcases List.mem_append.mp hmem with h1 | h1
      · exact (hD _ h1).2.2.2 rfl
      · simp at h1
    rw [matchToDot_eq_none _ hno]
    simp
  | cons z Z' ih =>
    intro h
    have hz : z ≠ '\n' := h z (List.mem_cons_self _ _)
    have hZ' : ∀ c ∈ Z', c ≠ '\n' := fun c hc => h c (List.mem_cons_of_mem _ hc)
    rw [List.cons_append]
    simp only [matchToDot]
    rw [if_neg hz]
    rcases ih hZ' with hr | hr
    · rw [hr]
      by_cases hzdot : z = '.'
      · rw [if_pos hzdot]
        cases hZcase : Z' with
        | nil =>
          left
          rw [List.nil_append]
          simp only [matchDotPlusLBrack]
          have hno : '[' ∉ D ++ [']'] := by
            intro hmem
            rcases List.mem_append.mp hmem with h1 | h1
            · exact (hD _ h1).2.1 rfl
            · simp at h1
          rw [matchToLBrack_eq_none _ hno]
          simp
        | cons w ws =>
          right
          rw [matchDotPlusLBrack_closes D hD w ws
            (hZ' w (hZcase ▸ List.mem_cons_self _ _))
            (fun c hc => hZ' c (hZcase ▸ List.mem_cons_of_mem _ hc))]
      · rw [if_neg hzdot]
        exact Or.inl rfl
    · rw [hr]
      exact Or.inr rfl

/-- Lemma: one-step unfolding of the first-segment matcher on a cons. -/
lemma matchToDot_cons (c : Char) (rest : List Char) :
    matchToDot (c :: rest) =
      match (if c = '\n' then none else matchToDot rest) with
      | some cap => some cap
      | none => if c = '.' then matchDotPlusLBrack rest else none := rfl

/-- Lemma: after the first `.+` has consumed a newline-free prefix, the
matcher finds the separator dot and completes with the discriminator
capture. -/
lemma matchToDot_closes (D : List Char)
    (hD : ∀ c ∈ D, c ≠ '\n' ∧ c ≠ '[' ∧ c ≠ ']' ∧ c ≠ '.')
    (t : Char) (ts : List Char) (ht : t ≠ '\n') (hts : ∀ c ∈ ts, c ≠ '\n') :
    ∀ (X : List Char), (∀ c ∈ X, c ≠ '\n') →
      matchToDot (X ++ '.' :: ((t :: ts) ++ '[' :: (D ++ [']']))) = some D := by
  intro X
  induction X with
  | nil =>
    intro _
    rw [List.nil_append, matchToDot_cons]
    have hbound := matchToDot_bound D hD (t :: ts)
      (fun c hc => by
        rcases List.mem_cons.mp hc with h1 | h1
        · exact h1 ▸ ht
        · exact hts c h1)
    rcases hbound with hr | hr
    · rw [hr]
      simp
      exact matchDotPlusLBrack_closes D hD t ts ht hts
    · rw [hr]
      simp
  | cons x X' ih =>
    intro h
    have hx : x ≠ '\n' := h x (List.mem_cons_self _ _)
    rw [List.cons_append]
    simp only [matchToDot]
    rw [ih (fun c hc => h c (List.mem_cons_of_mem _ hc))]
    simp [hx]

/-- Decidable equality of Except results, used to evaluate the embedding
on concrete inputs. -/
instance {ε α : Type} [DecidableEq ε] [DecidableEq α] : DecidableEq (Except ε α) :=
  fun x y =>
  match x, y with
  | .ok a, .ok b =>
    if h : a = b then .isTrue (by rw [h]) else .isFalse (fun hc => h (by cases hc; rfl))
  | .error e, .error f =>
    if h : e = f then .isTrue (by rw [h]) else .isFalse (fun hc => h (by cases hc; rfl))
  | .ok _, .error _ => .isFalse (fun hc => Except.noConfusion hc)
  | .error _, .ok _ => .isFalse (fun hc => Except.noConfusion hc)

/-- Lemma: the anchored pattern matches a materialized name from its first
character and captures the discriminator. -/
lemma matchPatternAt_name (D : List Char)
    (hD : ∀ c ∈ D, c ≠ '\n' ∧ c ≠ '[' ∧ c ≠ ']' ∧ c ≠ '.')
    (j : Char) (J' : List Char) (hj : j ≠ '\n') (hJ' : ∀ c ∈ J', c ≠ '\n')
    (t : Char) (ts : List Char) (ht : t ≠ '\n') (hts : ∀ c ∈ ts, c ≠ '\n') :
    matchPatternAt (j :: (J' ++ '.' :: ((t :: ts) ++ '[' :: (D ++ [']'])))) = some D := by
  simp only [matchPatternAt]
  rw [matchToDot_closes D hD t ts ht hts J' hJ']
  simp [hj]

/-- Lemma: the leftmost search finds the match at position 0 of a
materialized name. -/
lemma findSubmatch_name (D : List Char)
    (hD : ∀ c ∈ D, c ≠ '\n' ∧ c ≠ '[' ∧ c ≠ ']' ∧ c ≠ '.')
    (j : Char) (J' : List Char) (hj : j ≠ '\n') (hJ' : ∀ c ∈ J', c ≠ '\n')
    (t : Char) (ts : List Char) (ht : t ≠ '\n') (hts : ∀ c ∈ ts, c ≠ '\n') :
    findSubmatch (j :: (J' ++ '.' :: ((t :: ts) ++ '[' :: (D ++ [']'])))) = some D := by
  simp only [findSubmatch]
  rw [matchPatternAt_name D hD j J' hj hJ' t ts ht hts]

/-- C10 (amended): for a job whose name is non-empty and newline-free and
a task group with non-empty newline-free name at index i < count, the name
emitted by materializeTaskGroups round-trips: extractTaskGroupId succeeds
and returns the decimal string of i.  (Names containing a newline break
the round-trip, since `.` in the Go pattern does not match newline — see
the counterexample.) -/
theorem materialize_extract_roundtrip (job : Job) (tg : TaskGroup) (i : Nat)
    (htg : tg ∈ job.taskGroups) (hi : i < tg.count)
    (hj1 : job.name ≠ "") (hj2 : ∀ c ∈ job.name.data, c ≠ '\n')
    (ht1 : tg.name ≠ "") (ht2 : ∀ c ∈ tg.name.data, c ≠ '\n') :
    ((taskGroupName job tg i, tg) ∈ materializeTaskGroups job) ∧
    extractTaskGroupId (taskGroupName job tg i) = .ok (decimal i) := by
  constructor
  · simp only [materializeTaskGroups, List.mem_flatMap, List.mem_map, List.mem_range]
    exact ⟨tg, htg, i, hi, rfl⟩
  · have hdata : (taskGroupName job tg i).data =
        job.name.data ++ ('.' :: (tg.name.data ++ ('[' :: (decimalDigits i ++ [']'])))) := by
      have h1 : ("." : String).data = ['.'] := rfl
      have h2 : ("[" : String).data = ['['] := rfl
      have h3 : ("]" : String).data = [']'] := rfl
      simp [taskGroupName, decimal, String.data_append, h1, h2, h3, List.append_assoc]
    obtain ⟨j, J', hjd⟩ : ∃ j J', job.name.data = j :: J' := by
      cases hcase : job.name.data with
      | nil => exact absurd (String.ext (by rw [hcase])) hj1
      | cons a b => exact ⟨a, b, rfl⟩
    obtain ⟨t, ts, htd⟩ : ∃ t ts, tg.name.data = t :: ts := by
      cases hcase : tg.name.data with
      | nil => exact absurd (String.ext (by rw [hcase])) ht1
      | cons a b => exact ⟨a, b, rfl⟩
    have hj : j ≠ '\n' := hj2 j (by simp [hjd])
    have hJ' : ∀ c ∈ J', c ≠ '\n' :=
      fun c hc => hj2 c (by simp [hjd, hc])
    have ht : t ≠ '\n' := ht2 t (by simp [htd])
    have hts : ∀ c ∈ ts, c ≠ '\n' :=
      fun c hc => ht2 c (by simp [htd, hc])
    unfold extractTaskGroupId
    rw [hdata, hjd, htd, List.cons_append]
    rw [findSubmatch_name (decimalDigits i) (decimalDigits_ok i) j J' hj hJ' t ts ht hts]
    rfl

/-- Task group fixture whose name is a bare newline (non-empty). -/
def tgNl : TaskGroup := ⟨"\n", 1, []⟩

/-- Job fixture carrying the newline-named task group. -/
def jobNl : Job := ⟨"j", [tgNl], 1⟩

/-- Counterexample for C10 as stated: the job name and every task-group
name are non-empty, and "j.\n[0]" is the name materialized for index 0,
yet extractTaskGroupId fails on it instead of returning "0" — `.` in the
Go pattern does not match a newline, so no match exists. -/
theorem materialize_extract_cex :
    jobNl.name ≠ "" ∧ (∀ tgx ∈ jobNl.taskGroups, tgx.name ≠ "") ∧
    ((taskGroupName jobNl tgNl 0, tgNl) ∈ materializeTaskGroups jobNl) ∧
    extractTaskGroupId (taskGroupName jobNl tgNl 0) ≠ .ok (decimal 0) := by
  have h0 : decimal 0 = "0" := by
    rw [decimal, decimalDigits]
    decide
  have hname : taskGroupName jobNl tgNl 0 = "j.\n[0]" := by
    rw [taskGroupName, h0]
    decide
  refine ⟨by decide, ?_, ?_, ?_⟩
  · intro tgx htgx
    simp only [jobNl, List.mem_singleton] at htgx
    rw [htgx]
    decide
  · simp only [materializeTaskGroups, List.mem_flatMap, List.mem_map, List.mem_range]
    exact ⟨tgNl, by simp [jobNl], 0, by decide, rfl⟩
  · rw [hname, h0]
    decide

/-- Witness for the amended C10: job "web", task group "api", index 0. -/
theorem materialize_extract_roundtrip_witness :
    ((taskGroupName jobW tgW 0, tgW) ∈ materializeTaskGroups jobW) ∧
    extractTaskGroupId (taskGroupName jobW tgW 0) = .ok (decimal 0) :=
  materialize_extract_roundtrip jobW tgW 0 (by decide) (by decide)
    (by decide) (by decide) (by decide) (by decide)

end Nomad
